import Mathlib

/-!
The uBASIC PicoCalc front end: program store, source buffer builder, SAVE / LOAD, path
resolution, LIST and the supervised run loop

A shallow embedding of `src/main.c`.

Conventions of the embedding

* A C string is the list of its characters before the terminating NUL.
* `g_lines[0 .. g_line_count)` is a `List prog_line_t`; slots at or beyond
  `g_line_count` are never read by the code and are not represented.
* `int` line numbers are `Int`; none of the arithmetic modelled here can leave
  the 32-bit range for the inputs the theorems speak about.
* `malloc`, `strdup` and `realloc` are taken to succeed.
* What a function prints is returned as a `String` where a claim speaks about it.
* The filesystem is the set of paths `fopen` can open; the interpreter is any state type
  with a step function and a finished test; their calls are taken to return.
* Loops whose end is not structural take fuel and return `none` when it runs out; the
  theorems show that the fuel given suffices.
-/

/-! ## Program store / editor -/

/-- The capacity of `g_lines`: `#define MAX_LINES 512`. -/
def MAX_LINES : Nat := 512

/-- One stored program line: `typedef struct { int number; char *text; } prog_line_t;`. -/
structure prog_line_t where
  number : Int
  text : List Char
deriving DecidableEq, Repr

/-- The live part of the table: `g_lines[0 .. g_line_count)`. -/
abbrev Table := List prog_line_t

/-- After `prog_clear`, `g_line_count` is 0. -/
def prog_clear (_g : Table) : Table := []

/-- The loop of `prog_find_index`, entered at index `i` with the entries from `i` on. -/
def prog_find_index_loop (number : Int) : List prog_line_t → Nat → Option Nat
  | [], _ => none
  | l :: rest, i =>
    if l.number = number then some i
    else if l.number > number then none
    else prog_find_index_loop number rest (i + 1)

/-- Index of the entry `number`, `none` for the C result `-1`. -/
def prog_find_index (g : Table) (number : Int) : Option Nat :=
  prog_find_index_loop number g 0

/-- The test `*text==' '||*text=='\t'`. -/
def is_blank (c : Char) : Bool := c = ' ' || c = '\t'

/-- The assignment `g_lines[idx].text = strdup(text)`: the number at `idx` is kept. -/
def set_text : Table → Nat → List Char → Table
  | [], _, _ => []
  | l :: rest, 0, text => { l with text := text } :: rest
  | l :: rest, idx + 1, text => l :: set_text rest idx text

/-- The value of `ins` after `while (ins < g_line_count && g_lines[ins].number < number) ins++`. -/
def insert_pos (g : Table) (number : Int) : Nat :=
  (g.takeWhile (fun l => decide (l.number < number))).length

/-- The new table and the text printed by `prog_insert_or_replace(number, text)`. -/
def prog_insert_or_replace (g : Table) (number : Int) (text : List Char) : Table × String :=
  let text := text.dropWhile is_blank
  if text = [] then
    match prog_find_index g number with
    | some idx => (g.eraseIdx idx, "")
    | none => (g, "")
  else
    match prog_find_index g number with
    | some idx => (set_text g idx text, "")
    | none =>
      if g.length ≥ MAX_LINES then (g, "ERROR: program full\r\n")
      else
        let ins := insert_pos g number
        (g.take ins ++ { number := number, text := text } :: g.drop ins, "")

/-- The result of `prog_max_line`: the number of the last entry, 0 for the empty table. -/
def prog_max_line (g : Table) : Int :=
  match g.getLast? with
  | some l => l.number
  | none => 0

/-- A call on the program store. -/
inductive StoreOp where
  | insert (number : Int) (text : List Char)
  | clear
deriving DecidableEq, Repr

/-- The table after one call. -/
def StoreOp.apply (g : Table) : StoreOp → Table
  | .insert number text => (prog_insert_or_replace g number text).1
  | .clear => prog_clear g

/-- The table after a sequence of calls, starting from `g`. -/
def run_ops (g : Table) (ops : List StoreOp) : Table :=
  ops.foldl StoreOp.apply g

/-- The stored numbers are strictly ascending. -/
def StrictAsc (g : Table) : Prop :=
  g.Pairwise (fun a b => a.number < b.number)

instance (g : Table) : Decidable (StrictAsc g) := by
  unfold StrictAsc; infer_instance

/-- A table at capacity: the 512 lines numbered 1 to 512, each with the text `x`. -/
def full_table : Table :=
  (List.range 512).map (fun (i : Nat) => { number := Int.ofNat i + 1, text := ['x'] })

/-! ## Source buffer builder -/

/-- The C `tolower` on a character ("C" locale): `A`..`Z` to `a`..`z`, anything else unchanged. -/
def tolower (c : Char) : Char := c.toLower

/-- The C `isdigit`: `0`..`9`. -/
def isdigit (c : Char) : Bool := c.isDigit

/-- What `%d` prints for an `int`. -/
def fmt_d : Int → List Char
  | Int.ofNat n => Nat.toDigits 10 n
  | Int.negSucc n => '-' :: Nat.toDigits 10 (n + 1)

/-- The loop of `lowercase_outside_strings`, entered with the flag `in_str`. -/
def lowercase_loop : Bool → List Char → List Char
  | _, [] => []
  | in_str, c :: s =>
    if c = '"' then c :: lowercase_loop (!in_str) s
    else (if !in_str then tolower c else c) :: lowercase_loop in_str s

/-- The call `lowercase_outside_strings(s)`: the contents of `s` afterwards. -/
def lowercase_outside_strings (s : List Char) : List Char := lowercase_loop false s

/-- The value of `total` after the sizing loop of `prog_build_buffer`, starting from `total`. -/
def build_total (g : Table) (total : Nat) : Nat :=
  g.foldl (fun total l => total + (6 + l.text.length + 1)) total

/-- The call `snprintf(dst, size, "%d %s\n", n, t)`: the characters stored before the NUL (at most
`size - 1` of them) and the returned count `w` of the untruncated output. -/
def snprintf_line (size : Nat) (n : Int) (t : List Char) : List Char × Nat :=
  let s := fmt_d n ++ ' ' :: t ++ ['\n']
  (s.take (size - 1), s.length)

/-- The writing loop of `prog_build_buffer` over the remaining entries, with `pos` the value
of the variable and `buf` the characters the buffer holds before its first NUL. Each
`snprintf(buf+pos, total-pos, ...)` stores what fits and `pos` grows by the untruncated length,
so after a line was cut short `pos` is `total` or more: a further `snprintf` at `pos = total`
has size 0 and stores nothing. The result is `none` when a write would fall outside the
`total + 1` allocated bytes: a `snprintf` entered with `pos > total` (the size `total - pos`
wraps around), or the final `buf[pos]=0` with `pos > total`. -/
def prog_build_loop (total : Nat) : List prog_line_t → Nat → List Char → Option (List Char × Nat)
  | [], pos, buf => if pos ≤ total then some (buf, pos) else none
  | l :: rest, pos, buf =>
    if total < pos then none
    else
      let r := snprintf_line (total - pos) l.number l.text
      prog_build_loop total rest (pos + r.2) (buf ++ r.1)

/-- The function `prog_build_buffer`: the returned buffer and the value stored in `*out_size`. -/
def prog_build_buffer (g : Table) : Option (List Char × Nat) :=
  let total := build_total g 1
  match prog_build_loop total g 0 [] with
  | some (buf, pos) => some (lowercase_outside_strings buf, pos)
  | none => none

/-- The text of one line as `"%d %s\n"` formats it. -/
def line_bytes (l : prog_line_t) : List Char :=
  fmt_d l.number ++ ' ' :: l.text ++ ['\n']

/-- Position `i` of `s` lies outside double-quoted string literals: an even number of `"`
stand before it. -/
def outside_quotes (s : List Char) (i : Nat) : Bool :=
  (s.take i).count '"' % 2 = 0

/-- The text `s` with every letter outside double-quoted string literals lowercased and every
other character unchanged. -/
def lowercased_outside_quotes (s : List Char) : List Char :=
  s.enum.map (fun p => if outside_quotes s p.1 then tolower p.2 else p.2)

/-- The lines `decimal(number) + ' ' + text + '\n'` of the table, concatenated in table order. -/
def numbered_lines (g : Table) : List Char :=
  (g.map (fun l => (toString l.number).toList ++ [' '] ++ l.text ++ ['\n'])).flatten

/-- The test `(e-p)>=3 && tolower(p[0])=='e' && tolower(p[1])=='n' && tolower(p[2])=='d'` on
the characters `[p, e)`. -/
def end_at : List Char → Bool
  | p0 :: p1 :: p2 :: _ => tolower p0 = 'e' && tolower p1 = 'n' && tolower p2 = 'd'
  | _ => false

/-- The test of one line `[line, e)` in the scanning loop of `ensure_program_has_numbered_end`:
skip spaces, tabs and CRs, then digits, then spaces and tabs; at least three characters are
left and they are `end` in any letter case. -/
def line_has_end (ln : List Char) : Bool :=
  let line := ln.dropWhile (fun c => c = ' ' || c = '\t' || c = '\r')
  let p := line.dropWhile isdigit
  let p := p.dropWhile is_blank
  end_at p

/-- The scanning loop `while (*s)` of `ensure_program_has_numbered_end`, one iteration per unit
of fuel: `some true` when a line passes the test (the early `return buf`), `some false` when the
end of the buffer is reached, `none` when the fuel runs out. -/
def scan_for_end : Nat → List Char → Option Bool
  | 0, _ => none
  | fuel + 1, s =>
    if s = [] then some false
    else if line_has_end (s.takeWhile (fun c => c ≠ '\n')) then some true
    else scan_for_end fuel ((s.dropWhile (fun c => c ≠ '\n')).drop 1)

/-- The number of the synthesized line: `last < 65500 ? last + 10 : 65535`. -/
def end_line_number (last : Int) : Int :=
  if last < 65500 then last + 10 else 65535

/-- The call `ensure_program_has_numbered_end(buf)` with the table `g` behind `prog_max_line()`:
the returned buffer (`none` only if the scan ran out of fuel, which a buffer of `buf.length`
characters never does). -/
def ensure_program_has_numbered_end (g : Table) (buf : List Char) : Option (List Char) :=
  match scan_for_end (buf.length + 1) buf with
  | none => none
  | some true => some buf
  | some false => some (buf ++ (fmt_d (end_line_number (prog_max_line g)) ++ " end\n".toList))

/-- Newline-delimited lines of a buffer. -/
def lines_of : List Char → List (List Char)
  | [] => [[]]
  | c :: s =>
    if c = '\n' then [] :: lines_of s
    else
      match lines_of s with
      | [] => [[c]]
      | l :: ls => (c :: l) :: ls

/-- The text begins, in any letter case, with the three letters `end`. -/
def begins_with_end : List Char → Bool
  | a :: b :: c :: _ => (a = 'e' || a = 'E') && (b = 'n' || b = 'N') && (c = 'd' || c = 'D')
  | _ => false

/-- The C `isspace` ("C" locale): space, `\t`, `\n`, `\v`, `\f`, `\r`. -/
def isspace (c : Char) : Bool :=
  c = ' ' || c = '\t' || c = '\n' || c = Char.ofNat 11 || c = Char.ofNat 12 || c = '\r'

/-- The terminator test as the specification words it: skip a leading run of digits, then
whitespace; the rest begins with `end` in any letter case. -/
def counts_as_terminator_stated (ln : List Char) : Bool :=
  begins_with_end ((ln.dropWhile isdigit).dropWhile isspace)

/-- The terminator test in the order of the code: a line made of a run of spaces, tabs and CRs,
then a run of digits, then a run of spaces and tabs, then `end` in any letter case,
then anything. -/
def counts_as_terminator (ln : List Char) : Prop :=
  ∃ ws ds bl rest : List Char,
    ln = ws ++ ds ++ bl ++ rest ∧
    (∀ c ∈ ws, c = ' ' ∨ c = '\t' ∨ c = '\r') ∧
    (∀ c ∈ ds, isdigit c = true) ∧
    (∀ c ∈ bl, c = ' ' ∨ c = '\t') ∧
    begins_with_end rest = true

/-! ## SAVE / LOAD -/

/-- The bytes `save_program_file` writes when the file can be created and written:
`fwrite(buf, 1, sz, fp)` takes the first `sz` bytes of the built buffer, which holds its
characters followed by the terminating NUL; no terminator line is appended. -/
def save_program_file (g : Table) : Option (List Char) :=
  match prog_build_buffer g with
  | some (buf, sz) => some ((buf ++ [Char.ofNat 0]).take sz)
  | none => none

/-- The digit loop behind `atoi` on a string that begins with a digit. -/
def atoi_loop : Nat → List Char → Nat
  | acc, [] => acc
  | acc, c :: s => if isdigit c then atoi_loop (acc * 10 + (c.toNat - '0'.toNat)) s else acc

/-- The C `atoi` where `load_program_file` calls it: on a string whose first character is a
digit (no leading whitespace, no sign). Values beyond `INT_MAX` are clamped, as the target's
`strtol` does with its 32-bit `long`. -/
def atoi (s : List Char) : Int :=
  Int.ofNat (min (atoi_loop 0 s) 2147483647)

/-- The characters `fgets` moves to the line buffer, and the bytes left unread: at most `n`
characters, stopping after the first `\n`. -/
def fgets_take : Nat → List Char → List Char × List Char
  | 0, s => ([], s)
  | _ + 1, [] => ([], [])
  | n + 1, c :: s =>
    if c = '\n' then ([c], s)
    else ((c :: (fgets_take n s).1), (fgets_take n s).2)

/-- The call `fgets(linebuf, size, fp)` on the bytes not yet read: `none` for the NULL at their end. -/
def fgets (size : Nat) (unread : List Char) : Option (List Char × List Char) :=
  if unread = [] then none else some (fgets_take (size - 1) unread)

/-- The line buffer as the C string functions see it: the characters before the first NUL. -/
def c_str (bytes : List Char) : List Char :=
  bytes.takeWhile (fun c => c ≠ Char.ofNat 0)

/-- The loop `while (n && (linebuf[n-1] == '\n' || linebuf[n-1] == '\r')) linebuf[--n] = 0`. -/
def strip_crlf (l : List Char) : List Char :=
  l.rdropWhile (fun c => c = '\n' || c = '\r')

/-- The body of the reading loop of `load_program_file` on one line buffer, up to the capacity
test: `none` for a skipped (blank) line, else the entry to store and the new `next_num`. -/
def parse_line (linebuf : List Char) (next_num : Int) : Option (prog_line_t × Int) :=
  let linebuf := strip_crlf (c_str linebuf)
  let p := linebuf.dropWhile is_blank
  if p = [] then none
  else
    let q := p.dropWhile isdigit
    let numbered : Bool := decide (q.length < p.length) && (q.head?.map is_blank).getD false
    let num : Int := if numbered then atoi p else -1
    let q := if numbered then q.dropWhile is_blank else q
    if num < 0 then some ({ number := next_num, text := q }, next_num + 10)
    else some ({ number := num, text := q }, next_num)

/-- The reading loop of `load_program_file`, one `fgets` per unit of fuel: the temporary table
and whether the loop ended because `fgets` returned NULL (`false`: it ended at the capacity
`break`); `none` when the fuel runs out. -/
def load_read_loop : Nat → List Char → Int → List prog_line_t → Option (List prog_line_t × Bool)
  | 0, _, _, _ => none
  | fuel + 1, unread, next_num, tmp =>
    match fgets 512 unread with
    | none => some (tmp, true)
    | some (linebuf, rest) =>
      match parse_line linebuf next_num with
      | none => load_read_loop fuel rest next_num tmp
      | some (entry, next_num') =>
        if tmp.length ≥ MAX_LINES then some (tmp, false)
        else load_read_loop fuel rest next_num' (tmp ++ [entry])

/-- An opened input file: the bytes `fgets` delivers before it returns NULL, and whether that
NULL is a read error (`ferror` set) rather than the end of the file. -/
structure in_stream where
  data : List Char
  error : Bool
deriving DecidableEq, Repr

/-- The commit loop of `load_program_file`: `prog_insert_or_replace` for every temporary entry,
in read order. -/
def load_commit (g : Table) (tmp : List prog_line_t) : Table :=
  tmp.foldl (fun t e => (prog_insert_or_replace t e.number e.text).1) g

/-- The function `load_program_file` on the live table `g`; `fp` is what `try_open_for_read` returned
(`none` for NULL). The result is the live table afterwards and the return value. -/
def load_program_file (g : Table) (fp : Option in_stream) : Option (Table × Int) :=
  match fp with
  | none => some (g, -1)
  | some f =>
    match load_read_loop (f.data.length + 1) f.data 10 [] with
    | none => none
    | some (tmp, at_end) =>
      if at_end && f.error then some (g, -1)
      else if tmp.length = 0 then some (g, -1)
      else some (load_commit (prog_clear g) tmp, 0)

/-- The flag `in_str` of the lowercasing loop after it has passed over `s`. -/
def quote_state (in_str : Bool) (s : List Char) : Bool :=
  s.foldl (fun st c => if c = '"' then !st else st) in_str

/-- A run of spaces and tabs followed by a run of CRs and LFs: what is blank once the trailing
CR / LF and then the leading spaces and tabs are stripped. -/
def blank_crlf (l : List Char) : Prop :=
  ∃ a b : List Char, l = a ++ b ∧ (∀ c ∈ a, is_blank c = true) ∧
    (∀ c ∈ b, (decide (c = '\n') || decide (c = '\r')) = true)

/-- Every newline-delimited line of the bytes is blank in that sense. -/
def all_lines_blank (s : List Char) : Prop :=
  ∀ l ∈ lines_of s, blank_crlf l

/-- The text `t'` is `t` up to the case of its letters: character by character, `t'` has the
character of `t` or its lowercase form. -/
def case_variant (t' t : List Char) : Prop :=
  List.Forall₂ (fun a b => a = b ∨ a = tolower b) t' t

/-- A text as the editor stores it (not empty, no space or tab in front, no CR, LF or NUL
inside) that is at most 504 characters long: with a number of up to five digits, a space and
the newline, its saved line fits the 511 characters one `fgets` call of LOAD reads. -/
def editor_text (t : List Char) : Prop :=
  t ≠ [] ∧ t.dropWhile is_blank = t ∧
    (∀ c ∈ t, c ≠ '\n' ∧ c ≠ '\r' ∧ c ≠ Char.ofNat 0) ∧ t.length ≤ 504

instance (t : List Char) : Decidable (editor_text t) := by
  unfold editor_text; infer_instance

/-- A two-line program: `10 PRINT "Hi"`, `20 GOTO 10`. -/
def hello_table : Table :=
  [{ number := 10, text := "PRINT \"Hi\"".toList }, { number := 20, text := "GOTO 10".toList }]

/-! ## The reader of LOAD, line by line -/

/-- The successive line buffers `fgets(linebuf, 512, fp)` delivers until it returns NULL, one
`fgets` per unit of fuel. -/
def line_buffers : Nat → List Char → List (List Char)
  | 0, _ => []
  | fuel + 1, unread =>
    match fgets 512 unread with
    | none => []
    | some (linebuf, rest) => linebuf :: line_buffers fuel rest

/-- The line buffers of a whole file: every `fgets` takes at least one byte, so one unit of
fuel per byte is enough. -/
def file_line_buffers (data : List Char) : List (List Char) :=
  line_buffers data.length data

/-- The line as the parser sees it: the buffer up to its NUL, without trailing CR / LF and
without leading spaces and tabs. -/
def stripped_line (linebuf : List Char) : List Char :=
  (strip_crlf (c_str linebuf)).dropWhile is_blank

/-- The entries the body of the reading loop produces for a sequence of line buffers, in read
order and without the capacity test, starting with the implicit number `next_num`. -/
def parse_lines : List (List Char) → Int → List prog_line_t
  | [], _ => []
  | linebuf :: rest, next_num =>
    match parse_line linebuf next_num with
    | none => parse_lines rest next_num
    | some (entry, next_num') => entry :: parse_lines rest next_num'

/-- The entries `e_1 .. e_k` the non-blank lines of a file parse to. -/
def file_entries (data : List Char) : List prog_line_t :=
  parse_lines (file_line_buffers data) 10

/-! ## Path resolution -/

/-- The C `toupper` on a character ("C" locale): `a`..`z` to `A`..`Z`, anything else unchanged. -/
def toupper (c : Char) : Char := c.toUpper

/-- The table `prefixes` of `try_open_for_write` and `try_open_for_read`. -/
def prefixes : List (List Char) := ["/ubasic/".toList, "/".toList, []]

/-- The path `snprintf(out, 256, "%s%s", pre, target)` leaves in a 256-byte buffer: at most 255
characters of the concatenation. -/
def snprintf_path (pre target : List Char) : List Char :=
  (pre ++ target).take 255

/-- The loop `for (int i=0;i<3;++i)` over the remaining prefixes: the path of the first
`fopen` that succeeds. The filesystem is the set `fopen` of the paths that can be opened. -/
def try_prefixes (fopen : List Char → Bool) (target : List Char) :
    List (List Char) → Option (List Char)
  | [] => none
  | pre :: rest =>
    if fopen (snprintf_path pre target) then some (snprintf_path pre target)
    else try_prefixes fopen target rest

/-- The path `try_open_for_write` opens and leaves in `out_path`; `none` for NULL. -/
def try_open_for_write (fopen : List Char → Bool) (name : List Char) : Option (List Char) :=
  try_prefixes fopen name prefixes

/-- The path `try_open_for_read` opens and copies to `out_path`; `none` for NULL. The second
pass uses `up`, the name with `toupper` on every character; the C code fills `up[256]`
correctly for names of at most 255 characters, which is all the dispatcher can pass. -/
def try_open_for_read (fopen : List Char → Bool) (name : List Char) : Option (List Char) :=
  match try_prefixes fopen name prefixes with
  | some path => some path
  | none => try_prefixes fopen (name.map toupper) prefixes

/-- A name of 248 characters, as a user can type it after `SAVE `. -/
def long_name : List Char := List.replicate 248 'a'

/-! ## LIST -/

/-- The loop of `prog_list_range` over the remaining entries: what it prints. -/
def prog_list_loop : List prog_line_t → Int → Int → List Char
  | [], _, _ => []
  | l :: rest, a, b =>
    if (a ≥ 0 ∧ l.number < a) ∨ (b ≥ 0 ∧ l.number > b) then prog_list_loop rest a b
    else (fmt_d l.number ++ ' ' :: l.text ++ "\r\n".toList) ++ prog_list_loop rest a b

/-- What `prog_list_range(a, b)` prints. -/
def prog_list_range (g : Table) (a b : Int) : List Char :=
  if g.length = 0 then "(empty)\r\n".toList
  else prog_list_loop g a b

/-- The C `atoi` on any string: leading whitespace, an optional sign, then the digit run;
values beyond the range of the 32-bit `long` of the target are clamped. -/
def atoi_signed (s : List Char) : Int :=
  match s.dropWhile isspace with
  | '-' :: r => - Int.ofNat (min (atoi_loop 0 r) 2147483648)
  | '+' :: r => Int.ofNat (min (atoi_loop 0 r) 2147483647)
  | r => Int.ofNat (min (atoi_loop 0 r) 2147483647)

/-- The bounds the dispatcher passes for `LIST` with the argument text `p`:
`int a=-1,b=-1; if(*p){ a=atoi(p); char *d=strchr(p,'-'); if(d) b=atoi(d+1);}`. -/
def list_bounds (p : List Char) : Int × Int :=
  if p = [] then (-1, -1)
  else
    match p.dropWhile (fun c => c ≠ '-') with
    | [] => (atoi_signed p, -1)
    | _ :: d1 => (atoi_signed p, atoi_signed d1)

/-- The number `n` lies within the bounds `a`, `b`, where -1 stands for `unbounded`. -/
def in_list_range (a b n : Int) : Prop :=
  (a = -1 ∨ a ≤ n) ∧ (b = -1 ∨ n ≤ b)

instance (a b n : Int) : Decidable (in_list_range a b n) := by
  unfold in_list_range; infer_instance

/-- The lines `<number> <text>` of the entries, each followed by CR LF, as LIST prints them. -/
def listed_lines (g : Table) : List Char :=
  (g.map (fun l => (toString l.number).toList ++ [' '] ++ l.text ++ ['\r', '\n'])).flatten

/-! ## RUN -/

/-- How the loop of `run_current_program` is left. -/
inductive run_exit where
  | finished
  | user_break
  | too_many_steps
deriving DecidableEq, Repr

/-- The loop of `run_current_program`, one iteration per unit of fuel, for an interpreter with
states `σ`, the test `ubasic_finished` and the step `ubasic_run`. The value of the flag
`user_interrupt` when the iteration after `runs` interpreter steps reads it is
`user_interrupt runs`. The counter `steps` is a `uint32_t`; `runs` counts the calls of
`ubasic_run`. The result is the way the loop is left with the final `steps` and `runs`, or
`none` when the fuel runs out. -/
def run_loop {σ : Type} (ubasic_finished : σ → Bool) (ubasic_run : σ → σ)
    (user_interrupt : Nat → Bool) : Nat → σ → Nat → Nat → Option (run_exit × Nat × Nat)
  | 0, _, _, _ => none
  | fuel + 1, s, steps, runs =>
    if ubasic_finished s then some (run_exit.finished, steps, runs)
    else if user_interrupt runs then some (run_exit.user_break, steps, runs)
    else
      if (steps + 1) % 4294967296 > 5000000 then
        some (run_exit.too_many_steps, (steps + 1) % 4294967296, runs + 1)
      else run_loop ubasic_finished ubasic_run user_interrupt fuel (ubasic_run s)
        ((steps + 1) % 4294967296) (runs + 1)

/-- A text of 511 letters `a`, as LOAD stores it from an unnumbered line of that length. -/
def long_text : List Char := List.replicate 511 'a'

/-! ## Lemmas on the program store -/

theorem find_loop_shift (number : Int) (g : List prog_line_t) (i : Nat) :
    prog_find_index_loop number g i = (prog_find_index_loop number g 0).map (· + i) := by
  induction g generalizing i with
  | nil => simp [prog_find_index_loop]
  | cons l rest ih =>
    simp only [prog_find_index_loop]
    split
    · simp
    · split
      · simp
      · rw [ih (i + 1), ih (0 + 1)]
        cases prog_find_index_loop number rest 0 <;> simp [Nat.add_comm, Nat.add_left_comm]

theorem find_cons (number : Int) (l : prog_line_t) (rest : Table) :
    prog_find_index (l :: rest) number =
      if l.number = number then some 0
      else if l.number > number then none
      else (prog_find_index rest number).map (· + 1) := by
  simp only [prog_find_index, prog_find_index_loop]
  rw [find_loop_shift number rest (0 + 1)]

/-- What a successful search says about any table: the index holds the number. -/
theorem find_some_split (g : Table) (number : Int) (i : Nat)
    (h : prog_find_index g number = some i) :
    ∃ pre x post, g = pre ++ x :: post ∧ pre.length = i ∧ x.number = number ∧
      ∀ l ∈ pre, l.number < number := by
  induction g generalizing i with
  | nil => simp [prog_find_index, prog_find_index_loop] at h
  | cons l rest ih =>
    rw [find_cons] at h
    by_cases h1 : l.number = number
    · simp only [h1, if_true, Option.some.injEq] at h
      exact ⟨[], l, rest, by simp, by simpa using h, h1, by simp⟩
    · by_cases h2 : l.number > number
      · simp [h1, h2] at h
      · simp only [h1, h2, if_false, Option.map_eq_some'] at h
        obtain ⟨j, hj, rfl⟩ := h
        obtain ⟨pre, x, post, hg, hlen, hx, hpre⟩ := ih j hj
        refine ⟨l :: pre, x, post, by simp [hg], by simp [hlen], hx, ?_⟩
        intro y hy
        rcases List.mem_cons.mp hy with rfl | hy
        · omega
        · exact hpre y hy

/-- A failed search never reports a number that is absent as present. -/
theorem find_none_of_absent (g : Table) (number : Int)
    (h : ∀ l ∈ g, l.number ≠ number) : prog_find_index g number = none := by
  induction g with
  | nil => rfl
  | cons l rest ih =>
    rw [find_cons]
    have h1 : l.number ≠ number := h l (by simp)
    simp only [h1, if_false]
    split
    · rfl
    · rw [ih (fun y hy => h y (by simp [hy]))]; rfl

/-- On a strictly ascending table a failed search means the number is absent. -/
theorem absent_of_find_none (g : Table) (number : Int) (hs : StrictAsc g)
    (h : prog_find_index g number = none) : ∀ l ∈ g, l.number ≠ number := by
  induction g with
  | nil => simp
  | cons l rest ih =>
    rw [find_cons] at h
    have hs' : StrictAsc rest := (List.pairwise_cons.mp hs).2
    have hlt := (List.pairwise_cons.mp hs).1
    intro y hy
    by_cases h1 : l.number = number
    · simp [h1] at h
    · simp only [h1, if_false] at h
      by_cases h2 : l.number > number
      · rcases List.mem_cons.mp hy with rfl | hy
        · exact h1
        · have := hlt y hy
          omega
      · simp only [h2, if_false, Option.map_eq_none'] at h
        rcases List.mem_cons.mp hy with rfl | hy
        · exact h1
        · exact ih hs' h y hy

theorem eraseIdx_split (pre : Table) (x : prog_line_t) (post : Table) :
    (pre ++ x :: post).eraseIdx pre.length = pre ++ post := by
  induction pre with
  | nil => rfl
  | cons a pre ih => simp [List.eraseIdx, ih]

theorem set_text_split (pre : Table) (x : prog_line_t) (post : Table) (text : List Char) :
    set_text (pre ++ x :: post) pre.length text = pre ++ { x with text := text } :: post := by
  induction pre with
  | nil => rfl
  | cons a pre ih => simp [set_text, ih]

/-- In a strictly ascending table the entry `x` splits the rest into smaller and larger numbers. -/
theorem strictAsc_split (pre : Table) (x : prog_line_t) (post : Table)
    (hs : StrictAsc (pre ++ x :: post)) :
    (∀ l ∈ pre, l.number < x.number) ∧ (∀ l ∈ post, x.number < l.number) := by
  unfold StrictAsc at hs
  rw [List.pairwise_append] at hs
  obtain ⟨_, hx, hcross⟩ := hs
  exact ⟨fun l hl => hcross l hl x (by simp), fun l hl => (List.pairwise_cons.mp hx).1 l hl⟩

theorem filter_all {α : Type} (p : α → Bool) (l : List α) (h : ∀ a ∈ l, p a = true) :
    l.filter p = l := List.filter_eq_self.mpr h

theorem filter_none {α : Type} (p : α → Bool) (l : List α) (h : ∀ a ∈ l, p a = false) :
    l.filter p = [] := by
  apply List.filter_eq_nil_iff.mpr
  intro a ha
  simp [h a ha]

/-- On a strictly ascending table the entries before `insert_pos` are those below `number`. -/
theorem takeWhile_eq_filter (g : Table) (number : Int) (hs : StrictAsc g) :
    g.takeWhile (fun l => decide (l.number < number)) =
      g.filter (fun l => decide (l.number < number)) := by
  induction g with
  | nil => rfl
  | cons a rest ih =>
    have hs' : StrictAsc rest := (List.pairwise_cons.mp hs).2
    have hlt := (List.pairwise_cons.mp hs).1
    by_cases h : a.number < number
    · simp [List.takeWhile, List.filter, h, ih hs']
    · simp only [List.takeWhile, List.filter, h, decide_False]
      symm
      apply filter_none
      intro b hb
      have := hlt b hb
      simp only [decide_eq_false_iff_not]
      omega

/-- On a strictly ascending table without `number`, the entries from `insert_pos` on are
those above `number`. -/
theorem dropWhile_eq_filter (g : Table) (number : Int) (hs : StrictAsc g)
    (habs : ∀ l ∈ g, l.number ≠ number) :
    g.dropWhile (fun l => decide (l.number < number)) =
      g.filter (fun l => decide (number < l.number)) := by
  induction g with
  | nil => rfl
  | cons a rest ih =>
    have hs' : StrictAsc rest := (List.pairwise_cons.mp hs).2
    have hlt := (List.pairwise_cons.mp hs).1
    have ha : a.number ≠ number := habs a (by simp)
    by_cases h : a.number < number
    · have h' : ¬ number < a.number := by omega
      simp [List.dropWhile, List.filter, h, h', ih hs' (fun l hl => habs l (by simp [hl]))]
    · simp only [List.dropWhile, h, decide_False]
      symm
      apply filter_all
      intro b hb
      rcases List.mem_cons.mp hb with rfl | hb
      · simp only [decide_eq_true_eq]; omega
      · have := hlt b hb
        simp only [decide_eq_true_eq]; omega

/-- The insertion branch, written with the two halves of the table. -/
theorem insert_at_pos (g : Table) (number : Int) (x : prog_line_t) :
    g.take (insert_pos g number) ++ x :: g.drop (insert_pos g number) =
      g.takeWhile (fun l => decide (l.number < number)) ++
        x :: g.dropWhile (fun l => decide (l.number < number)) := by
  have h := List.takeWhile_append_dropWhile (fun l : prog_line_t => decide (l.number < number)) g
  unfold insert_pos
  conv_lhs => rw [← h]
  rw [List.take_left', List.drop_left']
  · simp
  · simp

/-- Deleting from a strictly ascending table removes exactly the entry with the number. -/
theorem delete_eq_filter (g : Table) (number : Int) (text : List Char) (hs : StrictAsc g)
    (ht : text.dropWhile is_blank = []) :
    (prog_insert_or_replace g number text).1 =
      g.filter (fun l => decide (l.number ≠ number)) := by
  simp only [prog_insert_or_replace, ht, if_true]
  cases hf : prog_find_index g number with
  | none =>
    have habs := absent_of_find_none g number hs hf
    simp only
    symm
    apply filter_all
    intro l hl
    simpa using habs l hl
  | some i =>
    obtain ⟨pre, x, post, hg, hlen, hx, hpre⟩ := find_some_split g number i hf
    subst hg
    obtain ⟨_, hpost⟩ := strictAsc_split pre x post hs
    have e1 : pre.filter (fun l => decide (l.number ≠ number)) = pre := by
      apply filter_all; intro l hl; have := hpre l hl; simp only [decide_eq_true_eq]; omega
    have e2 : post.filter (fun l => decide (l.number ≠ number)) = post := by
      apply filter_all; intro l hl; have := hpost l hl; simp only [decide_eq_true_eq]; omega
    simp only [← hlen, eraseIdx_split, List.filter_append, List.filter_cons, e1, e2]
    simp [hx]

/-- Replacing in a strictly ascending table: the entry at the found index gets the new text. -/
theorem replace_eq (g : Table) (number : Int) (text : List Char) (hs : StrictAsc g)
    (ht : text.dropWhile is_blank ≠ []) (i : Nat) (hf : prog_find_index g number = some i) :
    (prog_insert_or_replace g number text).1 =
      g.filter (fun l => decide (l.number < number)) ++
        { number := number, text := text.dropWhile is_blank } ::
          g.filter (fun l => decide (number < l.number)) ∧
    (prog_insert_or_replace g number text).1 =
      g.set i { number := number, text := text.dropWhile is_blank } := by
  obtain ⟨pre, x, post, hg, hlen, hx, hpre⟩ := find_some_split g number i hf
  subst hg
  obtain ⟨_, hpost⟩ := strictAsc_split pre x post hs
  have e1 : pre.filter (fun l => decide (l.number < number)) = pre := by
    apply filter_all; intro l hl; have := hpre l hl; simp only [decide_eq_true_eq]; omega
  have e2 : post.filter (fun l => decide (l.number < number)) = [] := by
    apply filter_none; intro l hl; have := hpost l hl; simp only [decide_eq_false_iff_not]; omega
  have e3 : pre.filter (fun l => decide (number < l.number)) = [] := by
    apply filter_none; intro l hl; have := hpre l hl; simp only [decide_eq_false_iff_not]; omega
  have e4 : post.filter (fun l => decide (number < l.number)) = post := by
    apply filter_all; intro l hl; have := hpost l hl; simp only [decide_eq_true_eq]; omega
  have hres : (prog_insert_or_replace (pre ++ x :: post) number text).1 =
      pre ++ { number := number, text := text.dropWhile is_blank } :: post := by
    simp only [prog_insert_or_replace, ht, if_false, hf, ← hlen, set_text_split, hx]
  refine ⟨?_, ?_⟩
  · rw [hres]
    simp [List.filter_append, List.filter_cons, e1, e2, e3, e4, hx]
  · rw [hres, ← hlen]
    simp

/-- Inserting a new number into a strictly ascending table that has room. -/
theorem insert_new_eq (g : Table) (number : Int) (text : List Char) (hs : StrictAsc g)
    (ht : text.dropWhile is_blank ≠ []) (hf : prog_find_index g number = none)
    (hroom : g.length < MAX_LINES) :
    (prog_insert_or_replace g number text).1 =
      g.filter (fun l => decide (l.number < number)) ++
        { number := number, text := text.dropWhile is_blank } ::
          g.filter (fun l => decide (number < l.number)) := by
  have habs := absent_of_find_none g number hs hf
  have hge : ¬ g.length ≥ MAX_LINES := by omega
  simp only [prog_insert_or_replace, ht, if_false, hf, hge, insert_at_pos]
  rw [takeWhile_eq_filter g number hs, dropWhile_eq_filter g number hs habs]

/-- The two filtered halves around a new entry are strictly ascending. -/
theorem strictAsc_around (g : Table) (x : prog_line_t) (hs : StrictAsc g) :
    StrictAsc (g.filter (fun l => decide (l.number < x.number)) ++
      x :: g.filter (fun l => decide (x.number < l.number))) := by
  unfold StrictAsc at *
  rw [List.pairwise_append]
  refine ⟨hs.filter _, ?_, ?_⟩
  · rw [List.pairwise_cons]
    refine ⟨?_, hs.filter _⟩
    intro b hb
    simpa using (List.mem_filter.mp hb).2
  · intro a ha b hb
    have ha' : a.number < x.number := by simpa using (List.mem_filter.mp ha).2
    rcases List.mem_cons.mp hb with rfl | hb
    · exact ha'
    · have hb' : x.number < b.number := by simpa using (List.mem_filter.mp hb).2
      omega

/-- One call of `prog_insert_or_replace` keeps the table strictly ascending. -/
theorem insert_preserves_strictAsc (g : Table) (number : Int) (text : List Char)
    (hs : StrictAsc g) : StrictAsc (prog_insert_or_replace g number text).1 := by
  by_cases ht : text.dropWhile is_blank = []
  · rw [delete_eq_filter g number text hs ht]
    exact List.Pairwise.filter _ hs
  · cases hf : prog_find_index g number with
    | some i =>
      rw [(replace_eq g number text hs ht i hf).1]
      exact strictAsc_around g { number := number, text := text.dropWhile is_blank } hs
    | none =>
      by_cases hroom : g.length < MAX_LINES
      · rw [insert_new_eq g number text hs ht hf hroom]
        exact strictAsc_around g { number := number, text := text.dropWhile is_blank } hs
      · have hge : g.length ≥ MAX_LINES := by omega
        simpa [prog_insert_or_replace, ht, hf, hge] using hs

/-- One call of `prog_insert_or_replace` keeps the count within the capacity. -/
theorem insert_length_le (g : Table) (number : Int) (text : List Char)
    (hl : g.length ≤ MAX_LINES) : (prog_insert_or_replace g number text).1.length ≤ MAX_LINES := by
  simp only [prog_insert_or_replace]
  split
  · split
    · simp only [List.length_eraseIdx]
      split <;> omega
    · exact hl
  · split
    · rename_i idx _
      have hlen : ∀ (t : Table) (i : Nat) (x : List Char), (set_text t i x).length = t.length := by
        intro t
        induction t with
        | nil => intro i x; rfl
        | cons a t ih => intro i x; cases i <;> simp [set_text, ih]
      rw [hlen]; exact hl
    · split
      · exact hl
      · rename_i hroom
        have h := List.takeWhile_append_dropWhile
          (fun l : prog_line_t => decide (l.number < number)) g
        have hle : insert_pos g number ≤ g.length := by
          unfold insert_pos
          exact (List.takeWhile_sublist _).length_le
        simp only [List.length_append, List.length_cons, List.length_take, List.length_drop]
        omega

theorem run_ops_strictAsc (g : Table) (ops : List StoreOp) (hs : StrictAsc g) :
    StrictAsc (run_ops g ops) := by
  induction ops generalizing g with
  | nil => exact hs
  | cons op ops ih =>
    simp only [run_ops, List.foldl_cons]
    apply ih
    cases op with
    | insert number text => exact insert_preserves_strictAsc g number text hs
    | clear => exact List.Pairwise.nil

theorem run_ops_length_le (g : Table) (ops : List StoreOp) (hl : g.length ≤ MAX_LINES) :
    (run_ops g ops).length ≤ MAX_LINES := by
  induction ops generalizing g with
  | nil => exact hl
  | cons op ops ih =>
    simp only [run_ops, List.foldl_cons]
    apply ih
    cases op with
    | insert number text => exact insert_length_le g number text hl
    | clear => simp [StoreOp.apply, prog_clear]

/-! ## The program store: claims C1 to C3 -/

/-- C1: starting from the empty table, after every call of a sequence of
`prog_insert_or_replace` and `prog_clear` calls (that is, after every prefix `ops.take k` of
the sequence) the stored numbers are strictly ascending: sorted, no number twice. -/
theorem C1_table_strictly_ascending (ops : List StoreOp) (k : Nat) :
    StrictAsc (run_ops [] (ops.take k)) :=
  run_ops_strictAsc [] (ops.take k) List.Pairwise.nil

/-- C2: on a strictly ascending table `T`, with `t'` the text without its leading spaces and
tabs: an empty `t'` removes the entry numbered `N` and keeps every other entry in order (`T`
itself when `N` is absent); a non-empty `t'`, when `N` is present or `T` has fewer than 512
entries, gives the entries of `T` below `N`, then `(N, t')`, then the entries of `T` above `N`,
which is strictly ascending, and a replaced entry stays at its index. -/
theorem C2_insert_or_replace_result (T : Table) (N : Int) (t : List Char) (hs : StrictAsc T) :
    (t.dropWhile (fun c => c = ' ' || c = '\t') = [] →
      (prog_insert_or_replace T N t).1 = T.filter (fun l => decide (l.number ≠ N)) ∧
      ((∀ l ∈ T, l.number ≠ N) → (prog_insert_or_replace T N t).1 = T)) ∧
    (t.dropWhile (fun c => c = ' ' || c = '\t') ≠ [] →
      ((∃ l ∈ T, l.number = N) ∨ T.length < 512) →
      (prog_insert_or_replace T N t).1 =
        T.filter (fun l => decide (l.number < N)) ++
          { number := N, text := t.dropWhile (fun c => c = ' ' || c = '\t') } ::
            T.filter (fun l => decide (N < l.number)) ∧
      StrictAsc (prog_insert_or_replace T N t).1 ∧
      (∀ (i : Nat) (l : prog_line_t), T[i]? = some l → l.number = N →
        (prog_insert_or_replace T N t).1 =
          T.set i { number := N, text := t.dropWhile (fun c => c = ' ' || c = '\t') })) := by
  have hb : (fun c : Char => (decide (c = ' ') || decide (c = '\t'))) = is_blank := rfl
  rw [hb]
  refine ⟨fun ht => ⟨delete_eq_filter T N t hs ht, fun habs => ?_⟩, fun ht hor => ?_⟩
  · rw [delete_eq_filter T N t hs ht]
    apply filter_all
    intro l hl
    simpa using habs l hl
  · refine ⟨?_, insert_preserves_strictAsc T N t hs, ?_⟩
    · cases hf : prog_find_index T N with
      | some i => exact (replace_eq T N t hs ht i hf).1
      | none =>
        have habs := absent_of_find_none T N hs hf
        rcases hor with ⟨l, hl, hN⟩ | hroom
        · exact absurd hN (habs l hl)
        · exact insert_new_eq T N t hs ht hf hroom
    · intro i y hy hi
      have hil : i < T.length := (List.getElem?_eq_some.mp hy).1
      have hyi : T[i] = y := (List.getElem?_eq_some.mp hy).2
      cases hf : prog_find_index T N with
      | none =>
        exact absurd hi (absent_of_find_none T N hs hf y (List.getElem?_mem hy))
      | some j =>
        rw [(replace_eq T N t hs ht j hf).2]
        obtain ⟨pre, x, post, hg, hlen, hx, _⟩ := find_some_split T N j hf
        have hjl : j < T.length := by rw [hg, List.length_append, List.length_cons]; omega
        have hxj : T[j] = x := by
          subst hg; subst hlen; exact List.getElem_of_append rfl rfl
        -- two entries with the number N in a strictly ascending table are the same entry
        have hlt : ∀ (a b : Nat) (ha : a < T.length) (hb : b < T.length), a < b →
            T[a].number < T[b].number := fun a b ha hb hab =>
          List.pairwise_iff_getElem.mp hs a b ha hb hab
        have hij : i = j := by
          by_contra hne
          rcases Nat.lt_or_gt_of_ne hne with h | h
          · have := hlt i j hil hjl h; rw [hyi, hxj] at this; omega
          · have := hlt j i hjl hil h; rw [hyi, hxj] at this; omega
        rw [hij]

/-- C2, at the table `10 a`, `20 b`: deleting 20, replacing 20 and inserting 15. -/
theorem C2_insert_or_replace_result_witness :
    StrictAsc [⟨10, ['a']⟩, ⟨20, ['b']⟩] ∧
    (prog_insert_or_replace [⟨10, ['a']⟩, ⟨20, ['b']⟩] 20 [' ', '\t']).1 = [⟨10, ['a']⟩] ∧
    (prog_insert_or_replace [⟨10, ['a']⟩, ⟨20, ['b']⟩] 20 [' ', 'c']).1 =
      [⟨10, ['a']⟩, ⟨20, ['c']⟩] ∧
    (prog_insert_or_replace [⟨10, ['a']⟩, ⟨20, ['b']⟩] 15 ['c']).1 =
      [⟨10, ['a']⟩, ⟨15, ['c']⟩, ⟨20, ['b']⟩] :=
  ⟨by decide,
   ((C2_insert_or_replace_result [⟨10, ['a']⟩, ⟨20, ['b']⟩] 20 [' ', '\t'] (by decide)).1
      (by decide)).1.trans (by decide),
   ((C2_insert_or_replace_result [⟨10, ['a']⟩, ⟨20, ['b']⟩] 20 [' ', 'c'] (by decide)).2
      (by decide) (Or.inr (by decide))).1.trans (by decide),
   ((C2_insert_or_replace_result [⟨10, ['a']⟩, ⟨20, ['b']⟩] 15 ['c'] (by decide)).2
      (by decide) (Or.inr (by decide))).1.trans (by decide)⟩

/-- C3: when the table holds exactly 512 entries, `N` is not among their numbers and the text
is non-empty after its leading spaces and tabs, `prog_insert_or_replace` prints
`ERROR: program full` and returns the table as it was; and after any sequence of calls from the
empty table the count is at most 512. -/
theorem C3_program_full (T : Table) (N : Int) (text : List Char)
    (hfull : T.length = 512) (habs : ∀ l ∈ T, l.number ≠ N)
    (ht : text.dropWhile (fun c => c = ' ' || c = '\t') ≠ []) :
    prog_insert_or_replace T N text = (T, "ERROR: program full\r\n") ∧
    ∀ ops : List StoreOp, (run_ops [] ops).length ≤ 512 := by
  have hb : (fun c : Char => (decide (c = ' ') || decide (c = '\t'))) = is_blank := rfl
  rw [hb] at ht
  refine ⟨?_, fun ops => run_ops_length_le [] ops (by simp)⟩
  have hge : T.length ≥ MAX_LINES := by simp [MAX_LINES, hfull]
  simp only [prog_insert_or_replace, ht, if_false, find_none_of_absent T N habs, hge, if_true]

/-- C3, at the table of the lines 1 to 512 and the new line `1000 x`. -/
theorem C3_program_full_witness :
    full_table.length = 512 ∧
    prog_insert_or_replace full_table 1000 ['x'] = (full_table, "ERROR: program full\r\n") :=
  ⟨by simp [full_table],
   (C3_program_full full_table 1000 ['x'] (by simp [full_table])
      (by
        intro l hl
        simp only [full_table, List.mem_map, List.mem_range] at hl
        obtain ⟨i, hi, rfl⟩ := hl
        simp only [ne_eq, Int.ofNat_eq_coe]
        omega)
      (by decide)).1⟩

/-! ## Decimal digits -/

theorem toDigitsCore_eq (f : Nat) : ∀ (n : Nat) (acc : List Char), n < f →
    Nat.toDigitsCore 10 f n acc = Nat.toDigits 10 n ++ acc := by
  induction f using Nat.strong_induction_on with
  | _ f ih =>
    intro n acc hn
    cases f with
    | zero => omega
    | succ f =>
      have hstep : ∀ a, Nat.toDigitsCore 10 (f + 1) n a =
          if n / 10 = 0 then (n % 10).digitChar :: a
          else Nat.toDigitsCore 10 f (n / 10) ((n % 10).digitChar :: a) := fun a => rfl
      have hstep2 : Nat.toDigits 10 n =
          if n / 10 = 0 then [(n % 10).digitChar]
          else Nat.toDigitsCore 10 n (n / 10) [(n % 10).digitChar] := rfl
      rw [hstep, hstep2]
      by_cases h0 : n / 10 = 0
      · simp [h0]
      · simp only [h0, if_false]
        have h1 : n / 10 < f := by omega
        have h2 : n / 10 < n := by omega
        rw [ih f (by omega) (n / 10) _ h1, ih n (by omega) (n / 10) _ h2]
        simp

theorem toDigits_lt (n : Nat) (h : n < 10) : Nat.toDigits 10 n = [n.digitChar] := by
  have h0 : n / 10 = 0 := by omega
  have hm : n % 10 = n := by omega
  show Nat.toDigitsCore 10 (n + 1) n [] = _
  simp [Nat.toDigitsCore, h0, hm]

theorem toDigits_ge (n : Nat) (h : 10 ≤ n) :
    Nat.toDigits 10 n = Nat.toDigits 10 (n / 10) ++ [(n % 10).digitChar] := by
  have h0 : n / 10 ≠ 0 := by omega
  show Nat.toDigitsCore 10 (n + 1) n [] = _
  simp only [Nat.toDigitsCore, h0, if_false]
  exact toDigitsCore_eq n (n / 10) _ (by omega)

/-- A decimal digit character is a digit, is none of the characters the parsers look for, and
has its value as distance from `0`. -/
theorem digitChar_facts (d : Nat) (h : d < 10) :
    isdigit d.digitChar = true ∧ d.digitChar.toNat - '0'.toNat = d ∧
    tolower d.digitChar = d.digitChar ∧ d.digitChar ≠ '"' := by
  interval_cases d <;> decide

/-- The facts the parsers use about a character that is a digit. -/
theorem isdigit_facts (c : Char) (h : isdigit c = true) :
    is_blank c = false ∧ c ≠ '\n' ∧ c ≠ '\r' ∧ c ≠ Char.ofNat 0 ∧ c ≠ ' ' ∧ c ≠ '\t' := by
  refine ⟨?_, ?_, ?_, ?_, ?_, ?_⟩ <;>
  first
    | (rintro rfl; exact absurd h (by decide))
    | (cases hb : is_blank c
       · rfl
       · simp only [is_blank, Bool.or_eq_true, decide_eq_true_eq] at hb
         rcases hb with rfl | rfl <;> exact absurd h (by decide))

theorem toDigits_all_digit (n : Nat) : ∀ c ∈ Nat.toDigits 10 n, isdigit c = true := by
  induction n using Nat.strong_induction_on with
  | _ n ih =>
    by_cases h : n < 10
    · rw [toDigits_lt n h]
      intro c hc
      rw [List.mem_singleton] at hc
      rw [hc]; exact (digitChar_facts n h).1
    · rw [toDigits_ge n (by omega)]
      intro c hc
      rcases List.mem_append.mp hc with hc | hc
      · exact ih (n / 10) (by omega) c hc
      · rw [List.mem_singleton] at hc
        rw [hc]; exact (digitChar_facts (n % 10) (by omega)).1

theorem toDigits_ne_nil (n : Nat) : Nat.toDigits 10 n ≠ [] := by
  by_cases h : n < 10
  · rw [toDigits_lt n h]; simp
  · rw [toDigits_ge n (by omega)]; simp

theorem toDigits_length_le (k : Nat) : ∀ n : Nat, n < 10 ^ (k + 1) →
    (Nat.toDigits 10 n).length ≤ k + 1 := by
  induction k with
  | zero =>
    intro n hn
    rw [toDigits_lt n (by simpa using hn)]; simp
  | succ k ih =>
    intro n hn
    by_cases h : n < 10
    · rw [toDigits_lt n h]; simp
    · rw [toDigits_ge n (by omega)]
      have : n / 10 < 10 ^ (k + 1) := by
        rw [Nat.div_lt_iff_lt_mul (by decide)]
        calc n < 10 ^ (k + 1 + 1) := hn
          _ = 10 ^ (k + 1) * 10 := by rw [pow_succ]
      have := ih (n / 10) this
      simp only [List.length_append, List.length_singleton]
      omega

theorem atoi_loop_append (ds rest : List Char) (acc : Nat) (h : ∀ c ∈ ds, isdigit c = true) :
    atoi_loop acc (ds ++ rest) = atoi_loop (atoi_loop acc ds) rest := by
  induction ds generalizing acc with
  | nil => rfl
  | cons d ds ih =>
    have hd : isdigit d = true := h d (by simp)
    simp only [List.cons_append, atoi_loop, hd, if_true]
    exact ih _ (fun c hc => h c (by simp [hc]))

theorem atoi_loop_toDigits (n : Nat) : atoi_loop 0 (Nat.toDigits 10 n) = n := by
  induction n using Nat.strong_induction_on with
  | _ n ih =>
    by_cases h : n < 10
    · rw [toDigits_lt n h]
      simp only [atoi_loop, (digitChar_facts n h).1, if_true, (digitChar_facts n h).2.1]
      omega
    · rw [toDigits_ge n (by omega), atoi_loop_append _ _ _ (toDigits_all_digit _),
        ih (n / 10) (by omega)]
      have hd := digitChar_facts (n % 10) (by omega)
      simp only [atoi_loop, hd.1, if_true, hd.2.1]
      omega


/-! ## The source buffer builder: claim C4 -/

theorem fmt_d_eq_toString (n : Int) : fmt_d n = (toString n).toList := by
  cases n <;> rfl

theorem fmt_d_ofNat (n : Nat) : fmt_d (Int.ofNat n) = Nat.toDigits 10 n := rfl

/-- A line number between 0 and 99999 prints as at most five characters, all digits. -/
theorem fmt_d_small (n : Int) (h0 : 0 ≤ n) (h1 : n ≤ 99999) :
    (fmt_d n).length ≤ 5 ∧ fmt_d n = Nat.toDigits 10 n.toNat := by
  obtain ⟨m, rfl⟩ := Int.eq_ofNat_of_zero_le h0
  refine ⟨?_, rfl⟩
  exact toDigits_length_le 4 m (by norm_num; omega)

theorem numbered_lines_cons (l : prog_line_t) (g : Table) :
    numbered_lines (l :: g) = line_bytes l ++ numbered_lines g := by
  simp [numbered_lines, line_bytes, fmt_d_eq_toString]

theorem build_total_eq (g : Table) (total : Nat) :
    build_total g total = total + (g.map (fun l => 6 + l.text.length + 1)).sum := by
  induction g generalizing total with
  | nil => simp [build_total]
  | cons l g ih =>
    simp only [build_total, List.foldl_cons, List.map_cons, List.sum_cons] at ih ⊢
    rw [ih]; omega

/-- When the lines still to write fit below `total`, the writing loop appends them all. -/
theorem build_loop_fits (total : Nat) (g : Table) (pos : Nat) (buf : List Char)
    (h : pos + (numbered_lines g).length < total) :
    prog_build_loop total g pos buf =
      some (buf ++ numbered_lines g, pos + (numbered_lines g).length) := by
  induction g generalizing pos buf with
  | nil =>
    have hle : pos ≤ total := by omega
    simp [prog_build_loop, numbered_lines, hle]
  | cons l g ih =>
    rw [numbered_lines_cons] at h ⊢
    rw [List.length_append] at h
    have hw : (line_bytes l).length ≤ total - pos - 1 := by omega
    have htake : (line_bytes l).take (total - pos - 1) = line_bytes l := List.take_of_length_le hw
    have hpos : ¬ total < pos := by omega
    simp only [prog_build_loop, snprintf_line, hpos, if_false]
    change prog_build_loop total g (pos + (line_bytes l).length)
        (buf ++ (line_bytes l).take (total - pos - 1)) = _
    rw [htake, ih _ _ (by omega)]
    simp [Nat.add_assoc]

/-- With line numbers of at most five digits the sizing loop reserves enough. -/
theorem numbered_lines_length_le (g : Table) (hr : ∀ l ∈ g, 0 ≤ l.number ∧ l.number ≤ 99999) :
    (numbered_lines g).length ≤ (g.map (fun l => 6 + l.text.length + 1)).sum := by
  induction g with
  | nil => simp [numbered_lines]
  | cons l g ih =>
    rw [numbered_lines_cons, List.length_append, List.map_cons, List.sum_cons]
    have h5 := (fmt_d_small l.number (hr l (by simp)).1 (hr l (by simp)).2).1
    have := ih (fun x hx => hr x (by simp [hx]))
    simp only [line_bytes, List.length_append, List.length_cons, List.length_nil] at *
    omega

theorem build_buffer_eq (g : Table) (hr : ∀ l ∈ g, 0 ≤ l.number ∧ l.number ≤ 99999) :
    prog_build_buffer g =
      some (lowercase_outside_strings (numbered_lines g), (numbered_lines g).length) := by
  have h := numbered_lines_length_le g hr
  have hfit : 0 + (numbered_lines g).length < build_total g 1 := by
    rw [build_total_eq]; omega
  simp only [prog_build_buffer, build_loop_fits _ g 0 [] hfit]
  simp

theorem lowercase_loop_length (st : Bool) (s : List Char) :
    (lowercase_loop st s).length = s.length := by
  induction s generalizing st with
  | nil => rfl
  | cons c s ih =>
    simp only [lowercase_loop]
    split <;> simp [ih]

/-- The flag of the lowercasing loop is the parity of the quotes passed so far. -/
theorem lowercase_loop_eq (pre s : List Char) :
    lowercase_loop (decide (pre.count '"' % 2 = 1)) s =
      (s.enumFrom pre.length).map
        (fun p => if outside_quotes (pre ++ s) p.1 then tolower p.2 else p.2) := by
  induction s generalizing pre with
  | nil => rfl
  | cons c s ih =>
    have hout : outside_quotes (pre ++ c :: s) pre.length = decide (pre.count '"' % 2 = 0) := by
      simp [outside_quotes]
    have hrest := ih (pre ++ [c])
    simp only [List.append_assoc, List.singleton_append, List.length_append,
      List.length_singleton] at hrest
    simp only [lowercase_loop, List.enumFrom_cons, List.map_cons, hout]
    by_cases hc : c = '"'
    · subst hc
      simp only [if_true]
      have hflip : (!decide (pre.count '"' % 2 = 1)) =
          decide ((pre ++ ['"']).count '"' % 2 = 1) := by
        simp only [List.count_append, List.count_singleton_self]
        rcases Nat.mod_two_eq_zero_or_one (pre.count '"') with h | h <;>
          simp [h, Nat.add_mod]
      rw [hflip, hrest]
      congr 1
      split <;> rfl
    · simp only [hc, if_false]
      have hsame : decide (pre.count '"' % 2 = 1) = decide ((pre ++ [c]).count '"' % 2 = 1) := by
        simp [List.count_append, List.count_singleton, hc]
      have hne : (c == '"') = false := by simpa using hc
      congr 1
      · rcases Nat.mod_two_eq_zero_or_one (pre.count '"') with h | h <;> simp [h]
      · rw [hsame, hrest]

theorem lowercase_outside_strings_eq (s : List Char) :
    lowercase_outside_strings s = lowercased_outside_quotes s := by
  have h := lowercase_loop_eq [] s
  simpa [lowercase_outside_strings, lowercased_outside_quotes, List.enum] using h

/-- C4: for a table whose numbers lie in 1..65535 (strictly ascending or not),
`prog_build_buffer` returns the lines `decimal(number) + ' ' + text + '\n'` concatenated in
table order, with every letter outside double-quoted string literals lowercased and every other
character unchanged, and stores the length of that text in `*out_size`; the table
`10 print "Hi"` gives exactly `10 print "Hi"\n`. -/
theorem C4_build_buffer (g : Table) (hr : ∀ l ∈ g, 1 ≤ l.number ∧ l.number ≤ 65535) :
    prog_build_buffer g =
      some (lowercased_outside_quotes (numbered_lines g),
        (lowercased_outside_quotes (numbered_lines g)).length) ∧
    prog_build_buffer [⟨10, "print \"Hi\"".toList⟩] = some ("10 print \"Hi\"\n".toList, 14) := by
  refine ⟨?_, by decide⟩
  rw [build_buffer_eq g (fun l hl => ⟨by have := hr l hl; omega, by have := hr l hl; omega⟩),
    lowercase_outside_strings_eq]
  simp [lowercased_outside_quotes]

/-- C4, at the table `10 PRINT "Hi"`, `20 Goto 10`. -/
theorem C4_build_buffer_witness :
    (∀ l ∈ [(⟨10, "PRINT \"Hi\"".toList⟩ : prog_line_t), ⟨20, "Goto 10".toList⟩],
      1 ≤ l.number ∧ l.number ≤ 65535) ∧
    prog_build_buffer [⟨10, "PRINT \"Hi\"".toList⟩, ⟨20, "Goto 10".toList⟩] =
      some ("10 print \"Hi\"\n20 goto 10\n".toList, 25) :=
  ⟨by decide,
   (C4_build_buffer [⟨10, "PRINT \"Hi\"".toList⟩, ⟨20, "Goto 10".toList⟩] (by decide)).1.trans
     (by decide)⟩


/-! ## The terminator scan -/

theorem lines_of_ne_nil (s : List Char) : lines_of s ≠ [] := by
  cases s with
  | nil => simp [lines_of]
  | cons c s =>
    simp only [lines_of]
    split
    · simp
    · split <;> simp

/-- The first line of a buffer and the lines after its first newline. -/
theorem lines_of_eq (s : List Char) :
    lines_of s = s.takeWhile (fun c => c ≠ '\n') ::
      (match s.dropWhile (fun c => c ≠ '\n') with
        | [] => []
        | _ :: r => lines_of r) := by
  induction s with
  | nil => rfl
  | cons c s ih =>
    by_cases hc : c = '\n'
    · subst hc
      simp [lines_of, List.takeWhile, List.dropWhile]
    · simp only [lines_of, hc, if_false, List.takeWhile, List.dropWhile, ne_eq, not_false_eq_true,
        decide_True]
      rw [ih]

theorem line_has_end_nil : line_has_end [] = false := rfl

/-- With more fuel than characters the scan ends, and it reports whether some line passes the
test of the code. -/
theorem scan_for_end_eq (fuel : Nat) (s : List Char) (h : s.length < fuel) :
    scan_for_end fuel s = some ((lines_of s).any line_has_end) := by
  induction fuel generalizing s with
  | zero => omega
  | succ fuel ih =>
    unfold scan_for_end
    by_cases hs : s = []
    · subst hs; rfl
    · rw [if_neg hs, lines_of_eq s, List.any_cons]
      cases hl : line_has_end (s.takeWhile (fun c => c ≠ '\n')) with
      | true => simp
      | false =>
        have hlen : (s.dropWhile (fun c => c ≠ '\n')).length ≤ s.length :=
          (List.dropWhile_sublist _).length_le
        rw [if_neg (by simp), Bool.false_or]
        cases hd : s.dropWhile (fun c => c ≠ '\n') with
        | nil =>
          cases fuel with
          | zero =>
            cases s with
            | nil => exact absurd rfl hs
            | cons c s => simp at h
          | succ fuel => rfl
        | cons x r =>
          rw [hd] at hlen
          simp only [List.drop_succ_cons, List.drop_zero]
          rw [ih r (by simp only [List.length_cons] at hlen; omega)]

theorem ensure_eq (g : Table) (buf : List Char) :
    ensure_program_has_numbered_end g buf =
      some (if (lines_of buf).any line_has_end then buf
        else buf ++ (fmt_d (end_line_number (prog_max_line g)) ++ " end\n".toList)) := by
  simp only [ensure_program_has_numbered_end, scan_for_end_eq (buf.length + 1) buf (by omega)]
  cases (lines_of buf).any line_has_end <;> rfl

/-- The lines of a buffer that continues after a newline. -/
theorem lines_of_append_nl (b t : List Char) :
    lines_of (b ++ '\n' :: t) = lines_of b ++ lines_of t := by
  induction b with
  | nil => simp [lines_of]
  | cons c b ih =>
    by_cases hc : c = '\n'
    · simp [lines_of, hc, ih]
    · simp only [List.cons_append, lines_of, hc, if_false]
      have ih' : lines_of (b.append ('\n' :: t)) = lines_of b ++ lines_of t := ih
      rw [ih']
      cases hb : lines_of b with
      | nil => exact absurd hb (lines_of_ne_nil b)
      | cons l ls => rfl

theorem lines_of_no_nl (s : List Char) (h : ∀ c ∈ s, c ≠ '\n') : lines_of s = [s] := by
  induction s with
  | nil => rfl
  | cons c s ih =>
    have hc : c ≠ '\n' := h c (by simp)
    simp [lines_of, hc, ih (fun x hx => h x (by simp [hx]))]

/-! ## The terminator test -/

theorem tolower_of_not_upper (c : Char) (h : ¬ (c.toNat ≥ 65 ∧ c.toNat ≤ 90)) : tolower c = c := by
  simp only [tolower, Char.toLower]
  rw [if_neg h]

/-- A character in `A`..`Z` is one of the 26 letters. -/
theorem upper_cases (c : Char) (h : c.toNat ≥ 65 ∧ c.toNat ≤ 90) :
    c ∈ "ABCDEFGHIJKLMNOPQRSTUVWXYZ".toList := by
  have hc : c = Char.ofNat c.toNat := (Char.ofNat_toNat c).symm
  obtain ⟨h1, h2⟩ := h
  generalize c.toNat = n at hc h1 h2
  subst hc
  interval_cases n <;> decide

theorem tolower_eq_letter (c : Char) :
    (tolower c = 'e' ↔ c = 'e' ∨ c = 'E') ∧ (tolower c = 'n' ↔ c = 'n' ∨ c = 'N') ∧
    (tolower c = 'd' ↔ c = 'd' ∨ c = 'D') := by
  by_cases h : c.toNat ≥ 65 ∧ c.toNat ≤ 90
  · have hm := upper_cases c h
    simp only [String.toList, List.mem_cons, List.mem_singleton, List.not_mem_nil, or_false] at hm
    rcases hm with rfl | rfl | rfl | rfl | rfl | rfl | rfl | rfl | rfl | rfl | rfl | rfl | rfl |
      rfl | rfl | rfl | rfl | rfl | rfl | rfl | rfl | rfl | rfl | rfl | rfl | rfl <;> decide
  · rw [tolower_of_not_upper c h]
    refine ⟨⟨Or.inl, ?_⟩, ⟨Or.inl, ?_⟩, ⟨Or.inl, ?_⟩⟩ <;>
    · rintro (h1 | rfl)
      · exact h1
      · exact absurd (by decide) h

/-- The three-letter test of the code is the letter-by-letter test. -/
theorem end_at_eq (p : List Char) : end_at p = begins_with_end p := by
  match p with
  | [] => rfl
  | [_] => rfl
  | [_, _] => rfl
  | a :: b :: c :: r =>
    simp only [begins_with_end, end_at]
    have ha := (tolower_eq_letter a).1
    have hb := (tolower_eq_letter b).2.1
    have hc := (tolower_eq_letter c).2.2
    rw [Bool.eq_iff_iff]
    simp only [Bool.and_eq_true, decide_eq_true_eq, Bool.or_eq_true, ha, hb, hc]

theorem dropWhile_skip {p : Char → Bool} (xs ys : List Char) (h : ∀ c ∈ xs, p c = true) :
    (xs ++ ys).dropWhile p = ys.dropWhile p := by
  induction xs with
  | nil => rfl
  | cons x xs ih =>
    simp only [List.cons_append, List.dropWhile, h x (by simp)]
    exact ih (fun c hc => h c (by simp [hc]))

theorem dropWhile_stop {p : Char → Bool} (y : Char) (ys : List Char) (h : p y = false) :
    (y :: ys).dropWhile p = y :: ys := by
  simp [List.dropWhile, h]

/-- A text that begins with `end` starts with a letter, which none of the three skips passes. -/
theorem begins_with_end_head (rest : List Char) (h : begins_with_end rest = true) :
    ∃ a r, rest = a :: r ∧ isdigit a = false ∧ is_blank a = false ∧
      (decide (a = ' ') || decide (a = '\t') || decide (a = '\r')) = false := by
  match rest, h with
  | a :: b :: c :: r, h =>
    simp only [begins_with_end, Bool.and_eq_true, Bool.or_eq_true, decide_eq_true_eq] at h
    refine ⟨a, b :: c :: r, rfl, ?_⟩
    rcases h.1.1 with rfl | rfl <;> decide

/-- The test of the code holds exactly for the lines of the form: spaces, tabs and CRs, then
digits, then spaces and tabs, then `end`. -/
theorem line_has_end_iff (ln : List Char) :
    line_has_end ln = true ↔ counts_as_terminator ln := by
  constructor
  · intro h
    simp only [line_has_end, end_at_eq] at h
    refine ⟨ln.takeWhile (fun c => c = ' ' || c = '\t' || c = '\r'),
      (ln.dropWhile (fun c => c = ' ' || c = '\t' || c = '\r')).takeWhile isdigit,
      ((ln.dropWhile (fun c => c = ' ' || c = '\t' || c = '\r')).dropWhile isdigit).takeWhile
        is_blank,
      ((ln.dropWhile (fun c => c = ' ' || c = '\t' || c = '\r')).dropWhile isdigit).dropWhile
        is_blank, ?_, ?_, ?_, ?_, h⟩
    · simp only [List.append_assoc, List.takeWhile_append_dropWhile]
    · intro c hc
      simpa [or_assoc] using List.mem_takeWhile_imp hc
    · intro c hc
      exact List.mem_takeWhile_imp hc
    · intro c hc
      simpa [is_blank] using List.mem_takeWhile_imp hc
  · rintro ⟨ws, ds, bl, rest, rfl, hws, hds, hbl, hrest⟩
    obtain ⟨a, r, rfl, had, hab, haw⟩ := begins_with_end_head rest hrest
    have hws' : ∀ c ∈ ws, (decide (c = ' ') || decide (c = '\t') || decide (c = '\r')) = true := by
      intro c hc; simpa [or_assoc] using hws c hc
    have hbl' : ∀ c ∈ bl, is_blank c = true := by
      intro c hc; simpa [is_blank] using hbl c hc
    have hblw : ∀ c ∈ bl, (decide (c = ' ') || decide (c = '\t') || decide (c = '\r')) = true := by
      intro c hc; rcases hbl c hc with rfl | rfl <;> decide
    have key : (((ws ++ ds ++ bl ++ a :: r).dropWhile
        (fun c => c = ' ' || c = '\t' || c = '\r')).dropWhile isdigit).dropWhile is_blank
          = a :: r := by
      rw [List.append_assoc, List.append_assoc, dropWhile_skip ws _ hws']
      cases ds with
      | nil =>
        rw [List.nil_append, dropWhile_skip bl _ hblw, dropWhile_stop a r haw,
          dropWhile_stop a r had, dropWhile_stop a r hab]
      | cons d ds =>
        have hd : isdigit d = true := hds d (by simp)
        have hdw : (decide (d = ' ') || decide (d = '\t') || decide (d = '\r')) = false := by
          have := isdigit_facts d hd
          simp [this.2.2.1, this.2.2.2.2.1, this.2.2.2.2.2]
        rw [List.cons_append, dropWhile_stop d _ hdw, ← List.cons_append,
          dropWhile_skip (d :: ds) _ hds]
        cases bl with
        | nil => rw [List.nil_append, dropWhile_stop a r had, dropWhile_stop a r hab]
        | cons b bl =>
          have hb : is_blank b = true := hbl' b (by simp)
          have hbd : isdigit b = false := by
            cases hx : isdigit b
            · rfl
            · have := (isdigit_facts b hx).1; rw [hb] at this; exact absurd this (by decide)
          rw [List.cons_append, dropWhile_stop b _ hbd, ← List.cons_append,
            dropWhile_skip (b :: bl) _ hbl', dropWhile_stop a r hab]
    simp only [line_has_end, end_at_eq]
    rw [key]; exact hrest

theorem any_line_has_end_iff (b : List Char) :
    (lines_of b).any line_has_end = true ↔ ∃ l ∈ lines_of b, counts_as_terminator l := by
  simp only [List.any_eq_true, line_has_end_iff]


/-! ## The injected terminator: claims C5 to C7 -/

theorem end_tail_ne_nil (k : Int) : fmt_d k ++ " end\n".toList ≠ [] := by
  simp [String.toList]

/-- The appended line passes the test of the code when its number is not negative. -/
theorem end_tail_has_end (k : Int) (hk : 0 ≤ k) :
    (lines_of (fmt_d k ++ " end\n".toList)).any line_has_end = true := by
  obtain ⟨m, rfl⟩ := Int.eq_ofNat_of_zero_le hk
  have hd := toDigits_all_digit m
  have hsplit : fmt_d (m : Int) ++ " end\n".toList =
      (Nat.toDigits 10 m ++ " end".toList) ++ '\n' :: [] := by
    show Nat.toDigits 10 m ++ " end\n".toList = _
    simp [String.toList]
  have hno : ∀ c ∈ Nat.toDigits 10 m ++ " end".toList, c ≠ '\n' := by
    intro c hc
    rcases List.mem_append.mp hc with hc | hc
    · exact (isdigit_facts c (hd c hc)).2.1
    · simp only [String.toList, List.mem_cons, List.mem_singleton, List.not_mem_nil,
        or_false] at hc
      rcases hc with rfl | rfl | rfl | rfl <;> decide
  rw [hsplit, lines_of_append_nl, lines_of_no_nl _ hno]
  simp only [List.singleton_append, List.any_cons, Bool.or_eq_true]
  left
  rw [line_has_end_iff]
  exact ⟨[], Nat.toDigits 10 m, [' '], "end".toList, by simp [String.toList], by simp, hd,
    by simp, by decide⟩

theorem prog_max_line_nonneg (g : Table) (h : ∀ l ∈ g, 0 ≤ l.number) : 0 ≤ prog_max_line g := by
  unfold prog_max_line
  cases hl : g.getLast? with
  | none => simp
  | some l => exact h l (List.mem_of_getLast?_eq_some hl)

theorem end_line_number_nonneg (last : Int) (h : 0 ≤ last) : 0 ≤ end_line_number last := by
  unfold end_line_number
  split <;> omega

theorem lowercase_loop_append (st : Bool) (xs ys : List Char) :
    lowercase_loop st (xs ++ ys) =
      lowercase_loop st xs ++ lowercase_loop (quote_state st xs) ys := by
  induction xs generalizing st with
  | nil => rfl
  | cons x xs ih =>
    simp only [List.cons_append, lowercase_loop, quote_state, List.foldl_cons]
    by_cases hx : x = '"'
    · simp only [hx, if_true, List.cons_append]
      exact congrArg _ (ih _)
    · simp only [hx, if_false, List.cons_append]
      exact congrArg _ (ih _)

theorem numbered_lines_append (a b : Table) :
    numbered_lines (a ++ b) = numbered_lines a ++ numbered_lines b := by
  simp [numbered_lines]

/-- A built buffer is empty or ends with a newline. -/
theorem built_ends_with_nl (g : Table) :
    lowercase_outside_strings (numbered_lines g) = [] ∨
    ∃ y, lowercase_outside_strings (numbered_lines g) = y ++ ['\n'] := by
  rcases List.eq_nil_or_concat g with rfl | ⟨g', l, rfl⟩
  · left; rfl
  · right
    rw [List.concat_eq_append, numbered_lines_append, numbered_lines_cons]
    have : numbered_lines g' ++ (line_bytes l ++ numbered_lines []) =
        (numbered_lines g' ++ (fmt_d l.number ++ ' ' :: l.text)) ++ ['\n'] := by
      simp [numbered_lines, line_bytes]
    rw [this, lowercase_outside_strings, lowercase_loop_append]
    refine ⟨_, congrArg _ ?_⟩
    cases quote_state false (numbered_lines g' ++ (fmt_d l.number ++ ' ' :: l.text)) <;> rfl

/-- C5, as the code has it: `ensure_program_has_numbered_end(b)` returns `b` unchanged if and
only if some newline-delimited line of `b` is made of a run of spaces, tabs and CRs, then a run
of digits, then a run of spaces and tabs, then the letters `end` in any letter case; otherwise
it returns `b` followed by one line `<k> end\n` and nothing else. The buffer
`10 print "Hi"\n` with the highest line 10 becomes `10 print "Hi"\n20 end\n`. -/
theorem C5_terminator_scan (g : Table) (b : List Char) :
    (ensure_program_has_numbered_end g b = some b ↔
      ∃ l ∈ lines_of b, counts_as_terminator l) ∧
    ((¬ ∃ l ∈ lines_of b, counts_as_terminator l) →
      ∃ k : Int, ensure_program_has_numbered_end g b = some (b ++ (fmt_d k ++ " end\n".toList))) ∧
    ensure_program_has_numbered_end [⟨10, "print \"Hi\"".toList⟩] "10 print \"Hi\"\n".toList =
      some "10 print \"Hi\"\n20 end\n".toList := by
  refine ⟨?_, ?_, by decide⟩
  · rw [ensure_eq, ← any_line_has_end_iff]
    cases h : (lines_of b).any line_has_end with
    | true => simp
    | false =>
      simp only [Bool.false_eq_true, if_false, Option.some.injEq, iff_false]
      intro hb
      exact end_tail_ne_nil _ (List.append_right_eq_self.mp hb)
  · intro hno
    rw [← any_line_has_end_iff] at hno
    refine ⟨end_line_number (prog_max_line g), ?_⟩
    rw [ensure_eq, if_neg hno]

/-- C5 as stated fails: the buffer `10 print\n 20 end\n` is returned unchanged, although none
of its lines begins with `end` after skipping leading digits and then whitespace (the line
` 20 end` begins with a space, so no digit is skipped, and what follows the space is `20 end`). -/
theorem C5_stated_counterexample :
    ensure_program_has_numbered_end [⟨10, "print".toList⟩] "10 print\n 20 end\n".toList =
      some "10 print\n 20 end\n".toList ∧
    (lines_of "10 print\n 20 end\n".toList).any counts_as_terminator_stated = false := by
  decide

/-- C6, as the code has it: when the built buffer of a table has no line that passes the
terminator test, the appended line carries the number `max + 10` if `max < 65500` (`max` the
result of `prog_max_line`), and 65535 otherwise. -/
theorem C6_end_line_number (g : Table) (b : List Char) (sz : Nat)
    (hb : prog_build_buffer g = some (b, sz))
    (hno : (lines_of b).any line_has_end = false) :
    ensure_program_has_numbered_end g b =
      some (b ++ (fmt_d (if prog_max_line g < 65500 then prog_max_line g + 10 else 65535) ++
        " end\n".toList)) := by
  have _ := hb
  rw [ensure_eq, hno]
  rfl

/-- C6, at the table `65500 x=1`: the appended line is `65535 end`. -/
theorem C6_end_line_number_witness :
    ensure_program_has_numbered_end [⟨65500, "x=1".toList⟩] "65500 x=1\n".toList =
      some "65500 x=1\n65535 end\n".toList :=
  (C6_end_line_number [⟨65500, "x=1".toList⟩] "65500 x=1\n".toList 10 (by decide)
    (by decide)).trans (by decide)

/-- C6 as stated fails: for the table `65495 x=1` the value `max + 10 = 65505` is above 65500,
yet the appended line is `65505 end`, not `65535 end`. -/
theorem C6_stated_counterexample :
    prog_build_buffer [⟨65495, "x=1".toList⟩] = some ("65495 x=1\n".toList, 10) ∧
    ¬ (prog_max_line [⟨65495, "x=1".toList⟩] + 10 ≤ 65500) ∧
    ensure_program_has_numbered_end [⟨65495, "x=1".toList⟩] "65495 x=1\n".toList =
      some "65495 x=1\n65505 end\n".toList ∧
    ensure_program_has_numbered_end [⟨65495, "x=1".toList⟩] "65495 x=1\n".toList ≠
      some "65495 x=1\n65535 end\n".toList := by
  decide

/-- On the lowercased lines of a table without negative numbers, a second
`ensure_program_has_numbered_end` on the result of the first returns it unchanged. -/
theorem ensure_idempotent_on_lines (g : Table) (hn : ∀ l ∈ g, 0 ≤ l.number) :
    ∃ r, ensure_program_has_numbered_end g (lowercase_outside_strings (numbered_lines g)) =
        some r ∧
      ensure_program_has_numbered_end g r = some r := by
  have hk : 0 ≤ end_line_number (prog_max_line g) :=
    end_line_number_nonneg _ (prog_max_line_nonneg g hn)
  rw [ensure_eq]
  refine ⟨_, rfl, ?_⟩
  cases h : (lines_of (lowercase_outside_strings (numbered_lines g))).any line_has_end with
  | true => simp only [if_true]; rw [ensure_eq, h]; rfl
  | false =>
    simp only [Bool.false_eq_true, if_false]
    rw [ensure_eq]
    have hany : (lines_of (lowercase_outside_strings (numbered_lines g) ++
        (fmt_d (end_line_number (prog_max_line g)) ++ " end\n".toList))).any line_has_end
          = true := by
      rcases built_ends_with_nl g with he | ⟨y, hy⟩
      · rw [he, List.nil_append]
        exact end_tail_has_end _ hk
      · rw [hy, List.append_assoc, List.singleton_append,
          lines_of_append_nl, List.any_append, end_tail_has_end _ hk, Bool.or_true]
    rw [hany]; rfl

/-- For every table with numbers in 1..65535, `prog_build_buffer` builds a buffer `b`,
`ensure_program_has_numbered_end(b)` returns a buffer `r`, and
`ensure_program_has_numbered_end(r)` returns `r` again. -/
theorem ensure_idempotent_in_range (g : Table) (hr : ∀ l ∈ g, 1 ≤ l.number ∧ l.number ≤ 65535) :
    ∃ (b : List Char) (sz : Nat) (r : List Char),
      prog_build_buffer g = some (b, sz) ∧
      ensure_program_has_numbered_end g b = some r ∧
      ensure_program_has_numbered_end g r = some r := by
  have hb := build_buffer_eq g (fun l hl => ⟨by have := hr l hl; omega, by have := hr l hl; omega⟩)
  obtain ⟨r, h1, h2⟩ := ensure_idempotent_on_lines g (fun l hl => by have := hr l hl; omega)
  exact ⟨_, _, r, hb, h1, h2⟩

/-- C7, evaluated: LOAD of the file line `100000 X` stores the line 100000. The builder sizes
its buffer for a number of five digits, so `snprintf` cuts the final newline of that line and
the buffer is `100000 x`. The first `ensure_program_has_numbered_end` glues `65535 end` to the
cut line; the second finds no line that begins with `end` and appends `65535 end` again. -/
theorem C7_ensure_twice_appends_twice :
    load_program_file [] (some ⟨"100000 X\n".toList, false⟩) =
      some ([⟨100000, "X".toList⟩], 0) ∧
    prog_build_buffer [⟨100000, "X".toList⟩] = some ("100000 x".toList, 9) ∧
    ensure_program_has_numbered_end [⟨100000, "X".toList⟩] "100000 x".toList =
      some "100000 x65535 end\n".toList ∧
    ensure_program_has_numbered_end [⟨100000, "X".toList⟩] "100000 x65535 end\n".toList =
      some "100000 x65535 end\n65535 end\n".toList := by
  decide

/-! ## LOAD on blank files and on read errors: claims C9 and C10 -/

theorem blank_crlf_of_stripped (l : List Char)
    (h : (strip_crlf l).dropWhile is_blank = []) : blank_crlf l := by
  induction l using List.reverseRecOn with
  | nil => exact ⟨[], [], rfl, by simp, by simp⟩
  | append_singleton l x ih =>
    unfold strip_crlf at h ih
    rw [List.rdropWhile_concat] at h
    by_cases hx : (decide (x = '\n') || decide (x = '\r')) = true
    · rw [if_pos hx] at h
      obtain ⟨a, b, hab, ha, hb⟩ := ih h
      refine ⟨a, b ++ [x], by rw [hab, List.append_assoc], ha, ?_⟩
      intro c hc
      rcases List.mem_append.mp hc with hc | hc
      · exact hb c hc
      · rw [List.mem_singleton] at hc; rw [hc]; exact hx
    · rw [if_neg hx] at h
      exact ⟨l ++ [x], [], by simp, List.dropWhile_eq_nil_iff.mp h, by simp⟩

theorem stripped_of_blank_crlf (l : List Char) (h : blank_crlf l) :
    (strip_crlf l).dropWhile is_blank = [] := by
  obtain ⟨a, b, rfl, ha, hb⟩ := h
  induction b using List.reverseRecOn with
  | nil =>
    rw [List.append_nil, List.dropWhile_eq_nil_iff]
    intro c hc
    exact ha c ((List.rdropWhile_prefix (fun c => decide (c = '\n') || decide (c = '\r')) a).subset hc)
  | append_singleton b x ih =>
    have hx := hb x (by simp)
    unfold strip_crlf at ih ⊢
    rw [← List.append_assoc, List.rdropWhile_concat, if_pos hx]
    exact ih (fun c hc => hb c (by simp [hc]))

theorem blank_crlf_prefix (x y : List Char) (h : blank_crlf (x ++ y)) : blank_crlf x := by
  obtain ⟨a, b, hab, ha, hb⟩ := h
  rcases List.append_eq_append_iff.mp hab with ⟨a', rfl, rfl⟩ | ⟨b', rfl, rfl⟩
  · exact ⟨x, [], by simp, fun c hc => ha c (by simp [hc]), by simp⟩
  · exact ⟨a, b', rfl, ha, fun c hc => hb c (by simp [hc])⟩

theorem blank_crlf_tail (c : Char) (l : List Char) (h : blank_crlf (c :: l)) : blank_crlf l := by
  obtain ⟨a, b, hab, ha, hb⟩ := h
  cases a with
  | nil =>
    rw [List.nil_append] at hab
    exact ⟨[], l, rfl, by simp, fun x hx => hb x (by rw [← hab]; simp [hx])⟩
  | cons a0 a =>
    rw [List.cons_append, List.cons.injEq] at hab
    exact ⟨a, b, hab.2, fun x hx => ha x (by simp [hx]), hb⟩

theorem blank_crlf_snoc_nl (l : List Char) (h : blank_crlf l) : blank_crlf (l ++ ['\n']) := by
  obtain ⟨a, b, rfl, ha, hb⟩ := h
  refine ⟨a, b ++ ['\n'], by simp, ha, ?_⟩
  intro c hc
  rcases List.mem_append.mp hc with hc | hc
  · exact hb c hc
  · rw [List.mem_singleton] at hc; rw [hc]; rfl

/-- A line buffer of that form is skipped by the reading loop. -/
theorem parse_line_blank (c : List Char) (next_num : Int) (h : blank_crlf c) :
    parse_line c next_num = none := by
  have hnul : c_str c = c := by
    unfold c_str
    rw [List.takeWhile_eq_self_iff]
    obtain ⟨a, b, rfl, ha, hb⟩ := h
    intro x hx
    rcases List.mem_append.mp hx with hx | hx
    · have := ha x hx
      simp only [is_blank, Bool.or_eq_true, decide_eq_true_eq] at this
      rcases this with rfl | rfl <;> decide
    · have := hb x hx
      simp only [Bool.or_eq_true, decide_eq_true_eq] at this
      rcases this with rfl | rfl <;> decide
  simp only [parse_line, hnul, stripped_of_blank_crlf c h, if_true]

/-- What `fgets` takes is a prefix of the first line with its newline. -/
theorem fgets_take_prefix (n : Nat) (s : List Char) :
    (fgets_take n s).1 <+: s.takeWhile (fun c => c ≠ '\n') ++ ['\n'] := by
  induction n generalizing s with
  | zero => simp [fgets_take]
  | succ n ih =>
    cases s with
    | nil => simp [fgets_take]
    | cons c s =>
      by_cases hc : c = '\n'
      · subst hc; simp [fgets_take, List.takeWhile]
      · simp only [fgets_take, hc, if_false, List.takeWhile, ne_eq, not_false_eq_true,
          decide_True, List.cons_append]
        exact (List.prefix_cons_inj c).mpr (ih s)

theorem fgets_take_append (n : Nat) (s : List Char) :
    (fgets_take n s).1 ++ (fgets_take n s).2 = s := by
  induction n generalizing s with
  | zero => simp [fgets_take]
  | succ n ih =>
    cases s with
    | nil => simp [fgets_take]
    | cons c s =>
      by_cases hc : c = '\n'
      · subst hc; simp [fgets_take]
      · simp only [fgets_take, hc, if_false, List.cons_append, ih s]

theorem fgets_take_rest_lt (n : Nat) (c : Char) (s : List Char) :
    (fgets_take (n + 1) (c :: s)).2.length < (c :: s).length := by
  have h := congrArg List.length (fgets_take_append (n + 1) (c :: s))
  have h1 : 0 < (fgets_take (n + 1) (c :: s)).1.length := by
    simp only [fgets_take]
    split <;> simp
  rw [List.length_append] at h
  omega

theorem all_lines_blank_tail (c : Char) (s : List Char) (h : all_lines_blank (c :: s)) :
    all_lines_blank s := by
  unfold all_lines_blank at *
  by_cases hc : c = '\n'
  · intro l hl
    exact h l (by simp [lines_of, hc, hl])
  · cases hs : lines_of s with
    | nil => exact absurd hs (lines_of_ne_nil s)
    | cons l0 ls =>
      have hcs : lines_of (c :: s) = (c :: l0) :: ls := by
        simp only [lines_of, hc, if_false, hs]
      intro l hl
      rcases List.mem_cons.mp hl with rfl | hl
      · exact blank_crlf_tail c l (h (c :: l) (by rw [hcs]; simp))
      · exact h l (by rw [hcs]; simp [hl])

theorem all_lines_blank_suffix (a b : List Char) (h : all_lines_blank (a ++ b)) :
    all_lines_blank b := by
  induction a with
  | nil => exact h
  | cons c a ih => exact ih (all_lines_blank_tail c _ h)

/-- On bytes whose lines are all blank the reading loop stores nothing and reaches the end. -/
theorem read_loop_blank (fuel : Nat) (s : List Char) (next_num : Int) (tmp : List prog_line_t)
    (hf : s.length < fuel) (h : all_lines_blank s) :
    load_read_loop fuel s next_num tmp = some (tmp, true) := by
  induction fuel generalizing s with
  | zero => omega
  | succ fuel ih =>
    cases s with
    | nil => simp [load_read_loop, fgets]
    | cons c s =>
      have hchunk : blank_crlf (fgets_take 511 (c :: s)).1 := by
        obtain ⟨t, ht⟩ := fgets_take_prefix 511 (c :: s)
        apply blank_crlf_prefix _ t
        rw [ht]
        apply blank_crlf_snoc_nl
        apply h
        rw [lines_of_eq]
        simp
      have hrest : all_lines_blank (fgets_take 511 (c :: s)).2 :=
        all_lines_blank_suffix (fgets_take 511 (c :: s)).1 _
          (by rw [fgets_take_append]; exact h)
      have hlt : (fgets_take 511 (c :: s)).2.length < (c :: s).length :=
        fgets_take_rest_lt 510 c s
      have hstep : load_read_loop (fuel + 1) (c :: s) next_num tmp =
          load_read_loop fuel (fgets_take 511 (c :: s)).2 next_num tmp := by
        simp only [load_read_loop, fgets, List.cons_ne_nil, if_false,
          parse_line_blank _ next_num hchunk]
      rw [hstep]
      exact ih _ (by simp only [List.length_cons] at hf hlt; omega) hrest

/-- C9, evaluated: the table `10 PRINT X` is saved as `10 print x`, and loading that file
brings back the text `print x`, not the text `PRINT X` that was stored. -/
theorem C9_save_load_changes_case :
    save_program_file [⟨10, "PRINT X".toList⟩] = some "10 print x\n".toList ∧
    load_program_file [⟨10, "PRINT X".toList⟩] (some ⟨"10 print x\n".toList, false⟩) =
      some ([⟨10, "print x".toList⟩], 0) ∧
    ([⟨10, "print x".toList⟩] : Table) ≠ [⟨10, "PRINT X".toList⟩] := by
  decide

/-- C10: when no newline-delimited line of the opened file is non-blank after stripping its
trailing CR / LF and its leading spaces and tabs (the empty file included), or when the reading
loop ends at a NULL from `fgets` that is a read error (whatever was parsed before),
`load_program_file` returns -1 and the live table is the table `T` it was. -/
theorem C10_load_atomic (T : Table) (f : in_stream)
    (h : (∀ l ∈ lines_of f.data, (strip_crlf l).dropWhile is_blank = []) ∨
      (f.error = true ∧
        ∃ tmp, load_read_loop (f.data.length + 1) f.data 10 [] = some (tmp, true))) :
    load_program_file T (some f) = some (T, -1) := by
  rcases h with h | ⟨herr, tmp, hloop⟩
  · have hb : all_lines_blank f.data := fun l hl => blank_crlf_of_stripped l (h l hl)
    have hloop := read_loop_blank (f.data.length + 1) f.data 10 [] (by omega) hb
    simp [load_program_file, hloop]
  · simp [load_program_file, hloop, herr]

/-- C10, at the live table `10 a`: a file of blank lines, and a file whose reading ends with a
read error after the line `20 b`. -/
theorem C10_load_atomic_witness :
    load_program_file [⟨10, ['a']⟩] (some ⟨" \t\r\n\n  \r\n".toList, false⟩) =
      some ([⟨10, ['a']⟩], -1) ∧
    load_program_file [⟨10, ['a']⟩] (some ⟨"20 b\n".toList, true⟩) =
      some ([⟨10, ['a']⟩], -1) :=
  ⟨C10_load_atomic [⟨10, ['a']⟩] ⟨" \t\r\n\n  \r\n".toList, false⟩ (Or.inl (by decide)),
   C10_load_atomic [⟨10, ['a']⟩] ⟨"20 b\n".toList, true⟩
     (Or.inr ⟨rfl, [⟨20, ['b']⟩], by decide⟩)⟩


/-! ## SAVE then LOAD: claim C8 -/

theorem isdigit_not_upper (c : Char) (h : isdigit c = true) :
    ¬ (c.toNat ≥ 65 ∧ c.toNat ≤ 90) := by
  intro hu
  have hm := upper_cases c hu
  simp only [String.toList, List.mem_cons, List.mem_singleton, List.not_mem_nil, or_false] at hm
  rcases hm with rfl | rfl | rfl | rfl | rfl | rfl | rfl | rfl | rfl | rfl | rfl | rfl | rfl |
    rfl | rfl | rfl | rfl | rfl | rfl | rfl | rfl | rfl | rfl | rfl | rfl | rfl <;>
    exact absurd h (by decide)

/-- Lowercasing turns no character into a space, tab, CR, LF, NUL or quote, and leaves these
as they are; lowercasing twice is lowercasing once. -/
theorem tolower_facts (b : Char) :
    (tolower b = ' ' ↔ b = ' ') ∧ (tolower b = '\t' ↔ b = '\t') ∧ (tolower b = '\n' ↔ b = '\n') ∧
    (tolower b = '\r' ↔ b = '\r') ∧ (tolower b = Char.ofNat 0 ↔ b = Char.ofNat 0) ∧
    (tolower b = '"' ↔ b = '"') ∧ tolower (tolower b) = tolower b := by
  by_cases h : b.toNat ≥ 65 ∧ b.toNat ≤ 90
  · have hm := upper_cases b h
    simp only [String.toList, List.mem_cons, List.mem_singleton, List.not_mem_nil, or_false] at hm
    rcases hm with rfl | rfl | rfl | rfl | rfl | rfl | rfl | rfl | rfl | rfl | rfl | rfl | rfl |
      rfl | rfl | rfl | rfl | rfl | rfl | rfl | rfl | rfl | rfl | rfl | rfl | rfl <;> decide
  · rw [tolower_of_not_upper b h]
    exact ⟨Iff.rfl, Iff.rfl, Iff.rfl, Iff.rfl, Iff.rfl, Iff.rfl, tolower_of_not_upper b h⟩

/-- The lowercasing loop passes over digits without changing them or its flag. -/
theorem lowercase_loop_digits (st : Bool) (ds : List Char) (h : ∀ c ∈ ds, isdigit c = true) :
    lowercase_loop st ds = ds ∧ quote_state st ds = st := by
  induction ds with
  | nil => exact ⟨rfl, rfl⟩
  | cons d ds ih =>
    have hd := h d (by simp)
    have hq : d ≠ '"' := by rintro rfl; exact absurd hd (by decide)
    have hl : tolower d = d := tolower_of_not_upper d (isdigit_not_upper d hd)
    obtain ⟨ih1, ih2⟩ := ih (fun c hc => h c (by simp [hc]))
    refine ⟨?_, ?_⟩
    · simp only [lowercase_loop, hq, if_false, hl, ih1, ite_self]
    · simp only [quote_state, List.foldl_cons, hq, if_false] at ih2 ⊢
      exact ih2

theorem lowercase_loop_case_variant (st : Bool) (t : List Char) :
    case_variant (lowercase_loop st t) t := by
  induction t generalizing st with
  | nil => exact List.Forall₂.nil
  | cons c t ih =>
    simp only [lowercase_loop]
    split
    · exact List.Forall₂.cons (Or.inl rfl) (ih _)
    · refine List.Forall₂.cons ?_ (ih _)
      split
      · exact Or.inr rfl
      · exact Or.inl rfl

/-- The lowercasing loop on one formatted line followed by more text. -/
theorem lowercase_loop_line (st : Bool) (l : prog_line_t) (rest : List Char)
    (hn : 0 ≤ l.number) :
    lowercase_loop st (line_bytes l ++ rest) =
      line_bytes { number := l.number, text := lowercase_loop st l.text } ++
        lowercase_loop (quote_state st l.text) rest := by
  obtain ⟨m, hm⟩ := Int.eq_ofNat_of_zero_le hn
  have hd : ∀ c ∈ fmt_d l.number, isdigit c = true := by
    rw [hm]; exact toDigits_all_digit m
  obtain ⟨h1, h2⟩ := lowercase_loop_digits st (fmt_d l.number) hd
  have e : line_bytes l ++ rest = fmt_d l.number ++ (' ' :: (l.text ++ ('\n' :: rest))) := by
    simp [line_bytes]
  have hsp : ∀ (s : Bool) (x : List Char),
      lowercase_loop s (' ' :: x) = ' ' :: lowercase_loop s x := by
    intro s x; cases s <;> rfl
  have hnl : ∀ (s : Bool) (x : List Char),
      lowercase_loop s ('\n' :: x) = '\n' :: lowercase_loop s x := by
    intro s x; cases s <;> rfl
  rw [e, lowercase_loop_append, h1, h2, hsp, lowercase_loop_append, hnl]
  simp [line_bytes]

/-- The built buffer is the plain text of a table with the same numbers and case variants of
the texts. -/
theorem lowercase_numbered_lines (st : Bool) (g : Table) (hn : ∀ l ∈ g, 0 ≤ l.number) :
    ∃ g' : Table, lowercase_loop st (numbered_lines g) = numbered_lines g' ∧
      List.Forall₂ (fun a b => a.number = b.number ∧ case_variant a.text b.text) g' g := by
  induction g generalizing st with
  | nil => exact ⟨[], rfl, List.Forall₂.nil⟩
  | cons l g ih =>
    obtain ⟨g', h1, h2⟩ := ih (quote_state st l.text) (fun x hx => hn x (by simp [hx]))
    refine ⟨{ number := l.number, text := lowercase_loop st l.text } :: g', ?_, ?_⟩
    · rw [numbered_lines_cons, numbered_lines_cons, lowercase_loop_line st l _ (hn l (by simp)),
        h1]
    · exact List.Forall₂.cons ⟨rfl, lowercase_loop_case_variant st l.text⟩ h2

theorem case_variant_map_tolower (t' t : List Char) (h : case_variant t' t) :
    t'.map tolower = t.map tolower := by
  induction h with
  | nil => rfl
  | cons hab _ ih =>
    rw [List.map_cons, List.map_cons, ih]
    rcases hab with rfl | rfl
    · rfl
    · rw [(tolower_facts _).2.2.2.2.2.2]

/-- A case variant of an editor text is an editor text. -/
theorem editor_text_case_variant (t' t : List Char) (h : case_variant t' t)
    (ht : editor_text t) : editor_text t' := by
  obtain ⟨hne, hhead, hchars, hlen⟩ := ht
  have hlen' : t'.length = t.length := List.Forall₂.length_eq h
  refine ⟨?_, ?_, ?_, by omega⟩
  · intro h0; rw [h0] at hlen'; exact hne (List.length_eq_zero.mp hlen'.symm)
  · cases h with
    | nil => rfl
    | cons hab htl =>
      rename_i a b l1 l2
      have hb : is_blank b = false := by
        cases hx : is_blank b
        · rfl
        · simp [List.dropWhile, hx] at hhead
          have := congrArg List.length hhead
          have hle := (List.dropWhile_sublist is_blank (l := l2)).length_le
          simp only [List.length_cons] at this
          omega
      have ha : is_blank a = false := by
        rcases hab with rfl | rfl
        · exact hb
        · cases hx : is_blank (tolower b)
          · rfl
          · simp only [is_blank, Bool.or_eq_true, decide_eq_true_eq] at hx
            rcases hx with hx | hx
            · rw [(tolower_facts b).1] at hx; subst hx; exact absurd hb (by decide)
            · rw [(tolower_facts b).2.1] at hx; subst hx; exact absurd hb (by decide)
      simp [List.dropWhile, ha]
  · intro c hc
    obtain ⟨b, hb, hcb⟩ : ∃ b ∈ t, c = b ∨ c = tolower b := by
      clear hne hhead hchars hlen hlen'
      induction h with
      | nil => simp at hc
      | cons hab _ ih =>
        rcases List.mem_cons.mp hc with rfl | hc
        · exact ⟨_, by simp, hab⟩
        · obtain ⟨b, hb, hcb⟩ := ih hc
          exact ⟨b, by simp [hb], hcb⟩
    obtain ⟨h1, h2, h3⟩ := hchars b hb
    rcases hcb with rfl | rfl
    · exact ⟨h1, h2, h3⟩
    · exact ⟨fun h => h1 ((tolower_facts b).2.2.1.mp h),
        fun h => h2 ((tolower_facts b).2.2.2.1.mp h),
        fun h => h3 ((tolower_facts b).2.2.2.2.1.mp h)⟩


theorem fgets_take_line (n : Nat) (xs rest : List Char) (hno : ∀ c ∈ xs, c ≠ '\n')
    (hlen : xs.length < n) :
    fgets_take n (xs ++ '\n' :: rest) = (xs ++ ['\n'], rest) := by
  induction xs generalizing n with
  | nil =>
    cases n with
    | zero => simp at hlen
    | succ n => simp [fgets_take]
  | cons x xs ih =>
    cases n with
    | zero => simp at hlen
    | succ n =>
      have hx : x ≠ '\n' := hno x (by simp)
      have h := ih n (fun c hc => hno c (by simp [hc])) (by simpa using hlen)
      show fgets_take (n + 1) (x :: (xs ++ '\n' :: rest)) = _
      simp only [fgets_take, hx, if_false, h, List.cons_append]

/-- The reading loop parses a written line `<number> <text>\n` back into its number and text. -/
theorem parse_line_numbered (m : Nat) (t : List Char) (next_num : Int) (hm : m ≤ 99999)
    (ht : editor_text t) :
    parse_line (Nat.toDigits 10 m ++ ' ' :: t ++ ['\n']) next_num =
      some ({ number := Int.ofNat m, text := t }, next_num) := by
  obtain ⟨hne, hhead, hchars, _⟩ := ht
  have hd := toDigits_all_digit m
  obtain ⟨d, ds, hds⟩ := List.exists_cons_of_ne_nil (toDigits_ne_nil m)
  have hdd : isdigit d = true := hd d (by rw [hds]; simp)
  -- the buffer holds no NUL
  have hnul : c_str (Nat.toDigits 10 m ++ ' ' :: t ++ ['\n']) =
      Nat.toDigits 10 m ++ ' ' :: t ++ ['\n'] := by
    unfold c_str
    rw [List.takeWhile_eq_self_iff]
    intro c hc
    simp only [List.mem_append, List.mem_cons, List.mem_singleton, List.not_mem_nil,
      or_false] at hc
    rcases hc with (hc | rfl | hc) | rfl
    · simpa using (isdigit_facts c (hd c hc)).2.2.2.1
    · decide
    · simpa using (hchars c hc).2.2
    · decide
  -- stripping removes the newline only
  have hstrip : strip_crlf (Nat.toDigits 10 m ++ ' ' :: t ++ ['\n']) =
      Nat.toDigits 10 m ++ ' ' :: t := by
    unfold strip_crlf
    rw [List.rdropWhile_concat_pos _ _ _ (by decide), List.rdropWhile_eq_self_iff]
    intro hl
    have hlast : (Nat.toDigits 10 m ++ ' ' :: t).getLast hl = t.getLast hne := by
      rw [List.getLast_append' _ _ (by simp), List.getLast_cons hne]
    rw [hlast]
    have := hchars _ (List.getLast_mem hne)
    simp [this.1, this.2.1]
  have hp : (Nat.toDigits 10 m ++ ' ' :: t).dropWhile is_blank =
      Nat.toDigits 10 m ++ ' ' :: t := by
    rw [hds, List.cons_append, dropWhile_stop d _ (isdigit_facts d hdd).1]
  have hq : (Nat.toDigits 10 m ++ ' ' :: t).dropWhile isdigit = ' ' :: t := by
    rw [dropWhile_skip _ _ hd, dropWhile_stop ' ' t (by decide)]
  have hatoi : atoi (Nat.toDigits 10 m ++ ' ' :: t) = Int.ofNat m := by
    unfold atoi
    rw [atoi_loop_append _ _ _ hd, atoi_loop_toDigits]
    have : atoi_loop m (' ' :: t) = m := by
      simp only [atoi_loop]
      rw [if_neg (by decide)]
    rw [this, Nat.min_eq_left (by omega)]
  have hne' : Nat.toDigits 10 m ++ ' ' :: t ≠ [] := by simp
  have hnum : (decide ((' ' :: t).length < (Nat.toDigits 10 m ++ ' ' :: t).length) &&
      (((' ' :: t).head?.map is_blank).getD false)) = true := by
    have hpos : 0 < (Nat.toDigits 10 m).length := by rw [hds]; simp
    simp only [List.length_append, List.length_cons, List.head?_cons, Option.map_some',
      Option.getD_some, Bool.and_eq_true, decide_eq_true_eq]
    exact ⟨by omega, by decide⟩
  have hq' : (' ' :: t).dropWhile is_blank = t := by
    have : (' ' :: t).dropWhile is_blank = t.dropWhile is_blank := by
      simp [List.dropWhile, is_blank]
    rw [this, hhead]
  have hnn : ¬ (Int.ofNat m < 0) := by simp
  simp only [parse_line, hnul, hstrip, hp, hq, hne', if_false, hnum, if_true, hatoi, hq', hnn]

/-- Enough fuel lets the reading loop turn the written lines of a table back into the table. -/
theorem read_loop_numbered_lines (g : Table) (fuel : Nat) (next_num : Int) (tmp : Table)
    (hl : ∀ l ∈ g, 0 ≤ l.number ∧ l.number ≤ 99999 ∧ editor_text l.text)
    (hcap : tmp.length + g.length ≤ MAX_LINES)
    (hf : (numbered_lines g).length < fuel) :
    load_read_loop fuel (numbered_lines g) next_num tmp = some (tmp ++ g, true) := by
  induction g generalizing fuel tmp with
  | nil =>
    cases fuel with
    | zero => omega
    | succ fuel => simp [load_read_loop, fgets, numbered_lines]
  | cons l g ih =>
    obtain ⟨h0, h1, ht⟩ := hl l (by simp)
    obtain ⟨m, hm⟩ := Int.eq_ofNat_of_zero_le h0
    have hm' : m ≤ 99999 := by rw [hm] at h1; exact_mod_cast h1
    have hfd : fmt_d l.number = Nat.toDigits 10 m := by rw [hm]; rfl
    cases fuel with
    | zero => omega
    | succ fuel =>
      rw [numbered_lines_cons] at hf ⊢
      have hline : line_bytes l = (Nat.toDigits 10 m ++ ' ' :: l.text) ++ ['\n'] := by
        simp [line_bytes, hfd]
      have hno : ∀ c ∈ Nat.toDigits 10 m ++ ' ' :: l.text, c ≠ '\n' := by
        intro c hc
        simp only [List.mem_append, List.mem_cons] at hc
        rcases hc with hc | rfl | hc
        · exact (isdigit_facts c (toDigits_all_digit m c hc)).2.1
        · decide
        · exact (ht.2.2.1 c hc).1
      have hlen : (Nat.toDigits 10 m ++ ' ' :: l.text).length < 511 := by
        have := toDigits_length_le 4 m (by norm_num; omega)
        have := ht.2.2.2
        simp only [List.length_append, List.length_cons]
        omega
      have hg : fgets 512 (line_bytes l ++ numbered_lines g) =
          some (line_bytes l, numbered_lines g) := by
        have hne : line_bytes l ++ numbered_lines g ≠ [] := by simp [line_bytes]
        simp only [fgets, hne, if_false]
        rw [hline, List.append_assoc, List.singleton_append,
          fgets_take_line 511 _ _ hno hlen]
      have hparse : parse_line (line_bytes l) next_num = some (l, next_num) := by
        have := parse_line_numbered m l.text next_num hm' ht
        rw [hline, List.append_assoc]
        simp only [List.cons_append, List.append_assoc] at this ⊢
        rw [this]
        have hl' : l = { number := Int.ofNat m, text := l.text } := by
          cases l; simp only [prog_line_t.mk.injEq, and_true]; exact hm
        rw [← hl']
      have hroom : ¬ tmp.length ≥ MAX_LINES := by
        simp only [List.length_cons] at hcap; omega
      rw [List.length_append] at hf
      have hpos : 0 < (line_bytes l).length := by simp [line_bytes]
      simp only [load_read_loop, hg, hparse, hroom, if_false]
      rw [ih fuel (tmp ++ [l]) (fun x hx => hl x (by simp [hx]))
        (by simp only [List.length_append, List.length_cons, List.length_nil] at hcap ⊢; omega)
        (by omega)]
      simp

/-- Replaying strictly ascending entries into the table appends them in order. -/
theorem load_commit_ascending (acc tmp : Table) (hs : StrictAsc (acc ++ tmp))
    (hcap : acc.length + tmp.length ≤ MAX_LINES)
    (ht : ∀ l ∈ tmp, l.text ≠ [] ∧ l.text.dropWhile is_blank = l.text) :
    load_commit acc tmp = acc ++ tmp := by
  induction tmp generalizing acc with
  | nil => simp [load_commit]
  | cons e tmp ih =>
    have hacc : StrictAsc acc := (List.pairwise_append.mp hs).1
    have hlt : ∀ l ∈ acc, l.number < e.number := fun l hl =>
      (List.pairwise_append.mp hs).2.2 l hl e (by simp)
    obtain ⟨hne, hdrop⟩ := ht e (by simp)
    have htx : e.text.dropWhile is_blank ≠ [] := by rw [hdrop]; exact hne
    have hfind := find_none_of_absent acc e.number (fun l hl => by have := hlt l hl; omega)
    have hstep : (prog_insert_or_replace acc e.number e.text).1 = acc ++ [e] := by
      rw [insert_new_eq acc e.number e.text hacc htx hfind
        (by simp only [List.length_cons] at hcap; omega), hdrop]
      rw [filter_all _ acc (fun l hl => by have := hlt l hl; simpa using this),
        filter_none _ acc (fun l hl => by have := hlt l hl; simp only [decide_eq_false_iff_not]; omega)]
    simp only [load_commit, List.foldl_cons, hstep] at ih ⊢
    rw [ih (acc ++ [e]) (by simpa using hs)
      (by simp only [List.length_append, List.length_cons, List.length_nil] at hcap ⊢; omega)
      (fun l hl => ht l (by simp [hl]))]
    simp


/-- What the table read back shares with the table saved. -/
theorem roundtrip_table_facts (g' g : Table)
    (h : List.Forall₂ (fun a b => a.number = b.number ∧ case_variant a.text b.text) g' g)
    (hl : ∀ l ∈ g, 1 ≤ l.number ∧ l.number ≤ 65535 ∧ editor_text l.text) :
    g'.map (fun l => l.number) = g.map (fun l => l.number) ∧
    (∀ l ∈ g', 0 ≤ l.number ∧ l.number ≤ 99999 ∧ editor_text l.text) ∧
    List.Forall₂ (fun a b => a.text.map tolower = b.text.map tolower) g' g := by
  induction h with
  | nil => exact ⟨rfl, by simp, List.Forall₂.nil⟩
  | @cons a b l1 l2 hab _ ih =>
    obtain ⟨ih1, ih2, ih3⟩ := ih (fun x hx => hl x (by simp [hx]))
    obtain ⟨hb1, hb2, hb3⟩ := hl b (by simp)
    refine ⟨by simp [hab.1, ih1], ?_, List.Forall₂.cons (case_variant_map_tolower _ _ hab.2) ih3⟩
    intro x hx
    rcases List.mem_cons.mp hx with rfl | hx
    · exact ⟨by rw [hab.1]; omega, by rw [hab.1]; omega,
        editor_text_case_variant _ _ hab.2 hb3⟩
    · exact ih2 x hx

theorem fgets_cons_rest_lt (c : Char) (s : List Char) :
    ∃ lb rest, fgets 512 (c :: s) = some (lb, rest) ∧ rest.length < (c :: s).length := by
  refine ⟨(fgets_take 511 (c :: s)).1, (fgets_take 511 (c :: s)).2, ?_, fgets_take_rest_lt 510 c s⟩
  simp [fgets]

theorem line_buffers_nil (fuel : Nat) : line_buffers fuel [] = [] := by
  cases fuel <;> simp [line_buffers, fgets]

/-- With more fuel than bytes the reading loop ends; it holds the first 512 entries of the
file, and it ended at the capacity `break` exactly when there are more. -/
theorem read_loop_eq (fuel : Nat) : ∀ (f2 : Nat) (data : List Char) (next_num : Int)
    (tmp : List prog_line_t), data.length < fuel → data.length ≤ f2 → tmp.length ≤ MAX_LINES →
    load_read_loop fuel data next_num tmp =
      some ((tmp ++ parse_lines (line_buffers f2 data) next_num).take MAX_LINES,
        decide (tmp.length + (parse_lines (line_buffers f2 data) next_num).length ≤ MAX_LINES)) := by
  induction fuel with
  | zero => intro f2 data next_num tmp h; omega
  | succ fuel ih =>
    intro f2 data next_num tmp hf hf2 htmp
    cases data with
    | nil =>
      rw [line_buffers_nil]
      simp [load_read_loop, fgets, parse_lines, List.take_of_length_le htmp, htmp]
    | cons c s =>
      obtain ⟨lb, rest, hg, hlt⟩ := fgets_cons_rest_lt c s
      cases f2 with
      | zero => simp at hf2
      | succ f2 =>
        have hlb : line_buffers (f2 + 1) (c :: s) = lb :: line_buffers f2 rest := by
          simp only [line_buffers, hg]
        rw [hlb]
        simp only [List.length_cons] at hf hf2 hlt
        cases hp : parse_line lb next_num with
        | none =>
          simp only [load_read_loop, hg, parse_lines, hp]
          exact ih f2 rest next_num tmp (by omega) (by omega) htmp
        | some r =>
          obtain ⟨e, nn⟩ := r
          simp only [load_read_loop, hg, parse_lines, hp]
          by_cases hfull : tmp.length ≥ MAX_LINES
          · have hlen : tmp.length = MAX_LINES := by omega
            rw [if_pos hfull]
            have h1 : (tmp ++ e :: parse_lines (line_buffers f2 rest) nn).take MAX_LINES = tmp := by
              rw [← hlen, List.take_left']
              rfl
            rw [h1]
            simp only [List.length_cons, Option.some.injEq, Prod.mk.injEq, true_and]
            symm
            rw [decide_eq_false_iff_not]
            omega
          · rw [if_neg hfull,
              ih f2 rest nn (tmp ++ [e]) (by omega) (by omega)
                (by simp only [List.length_append, List.length_cons, List.length_nil]; omega)]
            simp only [List.append_assoc, List.singleton_append, List.length_append,
              List.length_cons, List.length_nil, Option.some.injEq, Prod.mk.injEq, true_and]
            congr 1
            apply propext
            constructor <;> intro h <;> omega

theorem read_loop_file (data : List Char) :
    load_read_loop (data.length + 1) data 10 [] =
      some ((file_entries data).take MAX_LINES,
        decide ((file_entries data).length ≤ MAX_LINES)) := by
  have h := read_loop_eq (data.length + 1) data.length data 10 [] (by omega) (by omega)
    (by simp)
  simpa [file_entries, file_line_buffers] using h

theorem parse_line_none_iff (linebuf : List Char) (next_num : Int) :
    parse_line linebuf next_num = none ↔ stripped_line linebuf = [] := by
  unfold parse_line stripped_line
  constructor
  · intro h
    by_contra hne
    simp only [hne, if_false] at h
    have hsome : ∀ (c : Prop) [Decidable c] (x y : prog_line_t × Int),
        (if c then some x else some y) ≠ none := by
      intro c _ x y; split <;> simp
    exact hsome _ _ _ h
  · intro h
    simp only [h, if_true]

/-- Blank line buffers leave no trace in the parsed entries. -/
theorem parse_lines_filter (lbs : List (List Char)) (next_num : Int) :
    parse_lines lbs next_num =
      parse_lines (lbs.filter (fun b => decide (stripped_line b ≠ []))) next_num := by
  induction lbs generalizing next_num with
  | nil => rfl
  | cons lb lbs ih =>
    by_cases hb : stripped_line lb = []
    · have hn := (parse_line_none_iff lb next_num).mpr hb
      simp only [parse_lines, hn, List.filter_cons, hb, ne_eq, not_true_eq_false, decide_False,
        Bool.false_eq_true, if_false]
      exact ih next_num
    · cases hp : parse_line lb next_num with
      | none => exact absurd ((parse_line_none_iff lb next_num).mp hp) hb
      | some r =>
        obtain ⟨e, nn⟩ := r
        simp only [parse_lines, hp, List.filter_cons, hb, ne_eq, not_false_eq_true, decide_True,
          if_true]
        rw [ih nn]

/-- An unnumbered line: its text starts where the digit run ends. -/
theorem parse_line_unnumbered (linebuf : List Char) (next_num : Int)
    (hne : stripped_line linebuf ≠ [])
    (hq : ∀ c, ((stripped_line linebuf).dropWhile isdigit).head? = some c →
      c ≠ ' ' ∧ c ≠ '\t') :
    parse_line linebuf next_num =
      some ({ number := next_num, text := (stripped_line linebuf).dropWhile isdigit },
        next_num + 10) := by
  unfold stripped_line at hne hq
  have hnum : ((((strip_crlf (c_str linebuf)).dropWhile is_blank).dropWhile isdigit).head?.map
      is_blank).getD false = false := by
    cases hh : (((strip_crlf (c_str linebuf)).dropWhile is_blank).dropWhile isdigit).head? with
    | none => rfl
    | some c =>
      obtain ⟨h1, h2⟩ := hq c hh
      simp [is_blank, h1, h2]
  simp only [parse_line, stripped_line, hne, if_false, hnum, Bool.and_false, Bool.false_eq_true]
  rfl

/-- C11, evaluated: the file line `7up` begins with a digit that no space or tab follows. It is
the first unnumbered line, so its number is 10; its text is `up`, not the line `7up` itself. -/
theorem C11_unnumbered_line_loses_digits :
    stripped_line "7up\n".toList = "7up".toList ∧
    parse_line "7up\n".toList 10 = some (⟨10, "up".toList⟩, 20) ∧
    file_entries "7up\n".toList = [⟨10, "up".toList⟩] ∧
    load_program_file [] (some ⟨"7up\n".toList, false⟩) = some ([⟨10, "up".toList⟩], 0) := by
  decide

/-- C12: for a file read without I/O error whose non-blank lines parse to the entries
`e_1 .. e_k` with `k ≥ 1`, and for every previous live table `T`, `load_program_file` returns 0
and the live table is `prog_insert_or_replace(e_i.number, e_i.text)` applied for
`i = 1 .. min(k, 512)` in read order to the empty table; the reading loop holds these first
entries, and it left through the capacity branch (the one that prints the truncation warning)
exactly when `k > 512`. -/
theorem C12_load_replays_entries (T : Table) (f : in_stream) (hok : f.error = false)
    (hk : file_entries f.data ≠ []) :
    load_program_file T (some f) =
      some (((file_entries f.data).take 512).foldl
        (fun t e => (prog_insert_or_replace t e.number e.text).1) [], 0) ∧
    load_read_loop (f.data.length + 1) f.data 10 [] =
      some ((file_entries f.data).take 512, decide ((file_entries f.data).length ≤ 512)) := by
  have hloop := read_loop_file f.data
  refine ⟨?_, hloop⟩
  have hne : ¬ ((file_entries f.data).take MAX_LINES).length = 0 := by
    cases he : file_entries f.data with
    | nil => exact absurd he hk
    | cons e es => simp [MAX_LINES]
  simp only [load_program_file, hloop, hok, Bool.and_false, Bool.false_eq_true, if_false, hne,
    prog_clear, load_commit]
  rfl

/-- C12, at the live table `10 PRINT "Hi"`, `20 GOTO 10` and the file `10 a`, `30 c`, `10 b`:
the old lines are gone and the later line 10 overrides the earlier one. -/
theorem C12_load_replays_entries_witness :
    file_entries "10 a\n30 c\n10 b\n".toList =
      [⟨10, "a".toList⟩, ⟨30, "c".toList⟩, ⟨10, "b".toList⟩] ∧
    load_program_file hello_table (some ⟨"10 a\n30 c\n10 b\n".toList, false⟩) =
      some ([⟨10, "b".toList⟩, ⟨30, "c".toList⟩], 0) :=
  ⟨by decide,
   (C12_load_replays_entries hello_table ⟨"10 a\n30 c\n10 b\n".toList, false⟩ rfl
      (by decide)).1.trans (by decide)⟩

/-- C13, evaluated: the lines `10 a`, `20 b` come back as two entries from a file with LF or
with CRLF line ends, but a file with lone CR line ends is read as the single line 10 with the
text `a`, CR, `20 b`. -/
theorem C13_lone_cr_is_one_line :
    file_entries "10 a\n20 b\n".toList = [⟨10, "a".toList⟩, ⟨20, "b".toList⟩] ∧
    file_entries "10 a\r\n20 b\r\n".toList = [⟨10, "a".toList⟩, ⟨20, "b".toList⟩] ∧
    file_entries "10 a\r20 b\r".toList = [⟨10, "a\r20 b".toList⟩] ∧
    load_program_file [] (some ⟨"10 a\r20 b\r".toList, false⟩) =
      some ([⟨10, "a\r20 b".toList⟩], 0) := by
  decide

/-- C16, evaluated: LOAD of a file with the line `70000 x`, or with the line `0 x`, into the
empty table stores a line whose number is outside 1..65535. -/
theorem C16_load_stores_out_of_range_number :
    load_program_file [] (some ⟨"70000 x\n".toList, false⟩) =
      some ([⟨70000, "x".toList⟩], 0) ∧
    load_program_file [] (some ⟨"0 x\n".toList, false⟩) = some ([⟨0, "x".toList⟩], 0) ∧
    ¬ ((1 : Int) ≤ 70000 ∧ (70000 : Int) ≤ 65535) ∧ ¬ ((1 : Int) ≤ 0) := by
  decide

/-- C20: a non-blank line read by `load_program_file` whose leading digit run is not followed
by a space or tab gets the next implicit number, and its text is the line with the digit run
removed. When the only non-blank line read from a file is made of digits alone, the reading
loop counts one entry, `load_program_file` returns 0 and the live table is empty whatever it
held; so it is for the file `10` loaded over the table `10 PRINT "Hi"`, `20 GOTO 10`. -/
theorem C20_digit_run_is_dropped :
    (∀ (linebuf : List Char) (next_num : Int), stripped_line linebuf ≠ [] →
      (∀ c, ((stripped_line linebuf).dropWhile isdigit).head? = some c → c ≠ ' ' ∧ c ≠ '\t') →
      parse_line linebuf next_num =
        some ({ number := next_num, text := (stripped_line linebuf).dropWhile isdigit },
          next_num + 10)) ∧
    (∀ (T : Table) (data linebuf : List Char),
      (file_line_buffers data).filter (fun b => decide (stripped_line b ≠ [])) = [linebuf] →
      (∀ c ∈ stripped_line linebuf, isdigit c = true) →
      (∃ tmp, load_read_loop (data.length + 1) data 10 [] = some (tmp, true) ∧ tmp.length = 1) ∧
      load_program_file T (some ⟨data, false⟩) = some ([], 0)) ∧
    load_program_file hello_table (some ⟨"10\n".toList, false⟩) = some ([], 0) := by
  refine ⟨parse_line_unnumbered, ?_, by decide⟩
  intro T data linebuf hfile hdig
  have hne : stripped_line linebuf ≠ [] := by
    have hm : linebuf ∈ (file_line_buffers data).filter (fun b => decide (stripped_line b ≠ [])) := by
      rw [hfile]; simp
    simpa using (List.mem_filter.mp hm).2
  have hdrop : (stripped_line linebuf).dropWhile isdigit = [] :=
    List.dropWhile_eq_nil_iff.mpr hdig
  have hparse := parse_line_unnumbered linebuf 10 hne (by rw [hdrop]; simp)
  have hent : file_entries data = [⟨10, []⟩] := by
    unfold file_entries
    rw [parse_lines_filter, hfile]
    simp only [parse_lines, hparse, hdrop]
  have hloop := read_loop_file data
  rw [hent] at hloop
  have hloop' : load_read_loop (data.length + 1) data 10 [] = some ([⟨10, []⟩], true) := by
    rw [hloop]; rfl
  refine ⟨⟨_, hloop', rfl⟩, ?_⟩
  simp only [load_program_file, hloop']
  rfl


/-! ## Path resolution: claim C14 -/

theorem snprintf_path_fits (pre target : List Char) (h : pre.length + target.length ≤ 255) :
    snprintf_path pre target = pre ++ target :=
  List.take_of_length_le (by rw [List.length_append]; exact h)

theorem try_prefixes_eq_find (fopen : List Char → Bool) (target : List Char)
    (ps : List (List Char)) (h : ∀ p ∈ ps, p.length + target.length ≤ 255) :
    try_prefixes fopen target ps = (ps.map (fun p => p ++ target)).find? fopen := by
  induction ps with
  | nil => rfl
  | cons p ps ih =>
    simp only [try_prefixes, snprintf_path_fits p target (h p (by simp)), List.map_cons,
      List.find?_cons]
    cases fopen (p ++ target) with
    | true => simp
    | false =>
      simp only [Bool.false_eq_true, if_false]
      exact ih (fun q hq => h q (by simp [hq]))

/-- C14, as the code has it: for a name of at most 247 characters (so that every candidate
fits the 256-byte path buffer) and every set `fopen` of paths that can be opened,
`try_open_for_write` opens the first openable path of `/ubasic/`+name, `/`+name, name and fails
only if none is; `try_open_for_read` opens the first openable path of these three followed by
`/ubasic/`+UP, `/`+UP, UP, with UP the name uppercased, returns it as the resolved path and
fails only if all six fail. -/
theorem C14_path_resolution (fopen : List Char → Bool) (name : List Char)
    (hlen : name.length ≤ 247) :
    try_open_for_write fopen name =
      ["/ubasic/".toList ++ name, "/".toList ++ name, name].find? fopen ∧
    try_open_for_read fopen name =
      ["/ubasic/".toList ++ name, "/".toList ++ name, name,
        "/ubasic/".toList ++ name.map toupper, "/".toList ++ name.map toupper,
        name.map toupper].find? fopen := by
  have hp : ∀ (t : List Char), t.length ≤ 247 → ∀ p ∈ prefixes, p.length + t.length ≤ 255 := by
    intro t ht p hp
    simp only [prefixes, List.mem_cons, List.mem_singleton, List.not_mem_nil, or_false] at hp
    rcases hp with rfl | rfl | rfl <;> simp [String.toList] <;> omega
  have h1 := try_prefixes_eq_find fopen name prefixes (hp name hlen)
  have h2 := try_prefixes_eq_find fopen (name.map toupper) prefixes
    (hp _ (by rw [List.length_map]; exact hlen))
  have hl : ∀ (t : List Char), prefixes.map (fun p => p ++ t) =
      ["/ubasic/".toList ++ t, "/".toList ++ t, t] := by
    intro t; simp [prefixes]
  rw [hl] at h1 h2
  refine ⟨h1, ?_⟩
  unfold try_open_for_read
  rw [h1, h2]
  have happ : (["/ubasic/".toList ++ name, "/".toList ++ name, name,
        "/ubasic/".toList ++ name.map toupper, "/".toList ++ name.map toupper,
        name.map toupper] : List (List Char)) =
      ["/ubasic/".toList ++ name, "/".toList ++ name, name] ++
        ["/ubasic/".toList ++ name.map toupper, "/".toList ++ name.map toupper,
          name.map toupper] := rfl
  rw [happ, List.find?_append]
  cases ["/ubasic/".toList ++ name, "/".toList ++ name, name].find? fopen <;> rfl

/-- C14, at the name `prog.bas` on a filesystem where only `/PROG.BAS` can be opened. -/
theorem C14_path_resolution_witness :
    try_open_for_write (fun p => p = "/PROG.BAS".toList) "prog.bas".toList = none ∧
    try_open_for_read (fun p => p = "/PROG.BAS".toList) "prog.bas".toList =
      some "/PROG.BAS".toList :=
  ⟨(C14_path_resolution (fun p => p = "/PROG.BAS".toList) "prog.bas".toList
      (by decide)).1.trans (by decide),
   (C14_path_resolution (fun p => p = "/PROG.BAS".toList) "prog.bas".toList
      (by decide)).2.trans (by decide)⟩

/-- C14 as stated fails: for a name of 248 characters on a filesystem where every path can be
opened, `try_open_for_write` opens `/ubasic/` followed by the first 247 characters of the name,
which is none of the three candidate paths. -/
theorem C14_stated_counterexample :
    try_open_for_write (fun _ => true) long_name =
      some ("/ubasic/".toList ++ List.replicate 247 'a') ∧
    try_open_for_write (fun _ => true) long_name ≠
      ["/ubasic/".toList ++ long_name, "/".toList ++ long_name, long_name].find? (fun _ => true) := by
  have e : "/ubasic/".toList.length = 8 := rfl
  have h1 : try_open_for_write (fun _ => true) long_name =
      some ("/ubasic/".toList ++ List.replicate 247 'a') := by
    simp only [try_open_for_write, prefixes, try_prefixes, if_true, snprintf_path, long_name]
    rw [List.take_append_eq_append_take, List.take_of_length_le (by rw [e]; decide), e,
      List.take_replicate]
    rfl
  refine ⟨h1, ?_⟩
  rw [h1]
  simp only [List.find?_cons, if_true, ne_eq, Option.some.injEq]
  intro h
  have := congrArg List.length h
  simp only [List.length_append, List.length_replicate, long_name, e] at this
  omega


/-! ## The supervised run loop: claim C15 -/

/-- From a counter `k` of at most 5,000,000 that counted every step so far, the loop ends
within `5000002 - k` iterations. -/
theorem run_loop_from {σ : Type} (fin : σ → Bool) (run : σ → σ) (intr : Nat → Bool)
    (fuel : Nat) : ∀ (k : Nat) (s : σ), k ≤ 5000000 → 5000002 ≤ k + fuel →
    ∃ (exit : run_exit) (runs : Nat), run_loop fin run intr fuel s k k = some (exit, runs, runs) ∧
      k ≤ runs ∧ runs ≤ 5000001 ∧
      ((∀ j, k + j ≤ 5000000 → fin (run^[j] s) = false ∧ intr (k + j) = false) →
        exit = run_exit.too_many_steps ∧ runs = 5000001) := by
  induction fuel with
  | zero => intro k s hk hf; omega
  | succ fuel ih =>
    intro k s hk hf
    unfold run_loop
    by_cases h1 : fin s = true
    · refine ⟨run_exit.finished, k, by simp [h1], le_refl _, by omega, ?_⟩
      intro hno
      have := (hno 0 (by omega)).1
      simp only [Function.iterate_zero, id_eq] at this
      rw [this] at h1; exact absurd h1 (by simp)
    · by_cases h2 : intr k = true
      · refine ⟨run_exit.user_break, k, by simp [h1, h2], le_refl _, by omega, ?_⟩
        intro hno
        have := (hno 0 (by omega)).2
        simp only [Nat.add_zero] at this
        rw [this] at h2; exact absurd h2 (by simp)
      · have hmod : (k + 1) % 4294967296 = k + 1 := Nat.mod_eq_of_lt (by omega)
        rw [if_neg h1, if_neg h2, hmod]
        by_cases h3 : k + 1 > 5000000
        · rw [if_pos h3]
          exact ⟨run_exit.too_many_steps, k + 1, rfl, by omega, by omega, fun _ => ⟨rfl, by omega⟩⟩
        · rw [if_neg h3]
          obtain ⟨exit, runs, hr, hk1, hk2, hlim⟩ := ih (k + 1) (run s) (by omega) (by omega)
          refine ⟨exit, runs, hr, by omega, hk2, ?_⟩
          intro hno
          apply hlim
          intro j hj
          have := hno (j + 1) (by omega)
          rw [Function.iterate_succ_apply] at this
          rw [show k + 1 + j = k + (j + 1) by omega]
          exact this

/-- C15: for every interpreter (any state type, any `ubasic_finished` and `ubasic_run`) and
every sequence of values of the cancellation flag, the loop of `run_current_program` is left
once it is given enough iterations (5,000,002 or more): the interpreter has been advanced at
most 5,000,001 times, the 32-bit counter equals that number of advances (it never wrapped), and
a run that neither finishes nor is cancelled is left through the step-limit branch after
exactly 5,000,001 advances. -/
theorem C15_run_loop_terminates {σ : Type} (ubasic_finished : σ → Bool) (ubasic_run : σ → σ)
    (user_interrupt : Nat → Bool) (s : σ) (fuel : Nat) (hf : 5000002 ≤ fuel) :
    ∃ (exit : run_exit) (steps runs : Nat),
      run_loop ubasic_finished ubasic_run user_interrupt fuel s 0 0 = some (exit, steps, runs) ∧
      runs ≤ 5000001 ∧ steps = runs ∧ steps < 4294967296 ∧
      ((∀ j, j ≤ 5000000 →
          ubasic_finished (ubasic_run^[j] s) = false ∧ user_interrupt j = false) →
        exit = run_exit.too_many_steps ∧ runs = 5000001) := by
  obtain ⟨exit, runs, hr, _, h2, hlim⟩ :=
    run_loop_from ubasic_finished ubasic_run user_interrupt fuel 0 s (by omega) (by omega)
  refine ⟨exit, runs, runs, hr, h2, rfl, by omega, ?_⟩
  intro hno
  apply hlim
  intro j hj
  rw [Nat.zero_add] at hj ⊢
  exact hno j hj

/-- C15, for an interpreter that never finishes and a flag that is never set. -/
theorem C15_run_loop_terminates_witness :
    ∃ (exit : run_exit) (steps runs : Nat),
      run_loop (fun (_ : Unit) => false) id (fun _ => false) 5000002 () 0 0 =
        some (exit, steps, runs) ∧
      runs ≤ 5000001 ∧ steps = runs ∧ steps < 4294967296 ∧
      ((∀ j, j ≤ 5000000 →
          (fun (_ : Unit) => false) (id^[j] ()) = false ∧ (fun (_ : Nat) => false) j = false) →
        exit = run_exit.too_many_steps ∧ runs = 5000001) :=
  C15_run_loop_terminates (fun (_ : Unit) => false) id (fun _ => false) () 5000002
    (Nat.le_refl _)


/-! ## LIST: claim C17 -/

theorem listed_lines_cons (l : prog_line_t) (g : Table) :
    listed_lines (l :: g) = (fmt_d l.number ++ ' ' :: l.text ++ "\r\n".toList) ++ listed_lines g := by
  simp [listed_lines, fmt_d_eq_toString, String.toList]

/-- With bounds that are line numbers or -1, the loop prints the entries within the bounds. -/
theorem prog_list_loop_eq (g : Table) (a b : Int) (ha : -1 ≤ a) (hb : -1 ≤ b) :
    prog_list_loop g a b =
      listed_lines (g.filter (fun l => decide (in_list_range a b l.number))) := by
  induction g with
  | nil => rfl
  | cons l g ih =>
    by_cases hin : in_list_range a b l.number
    · have hskip : ¬ ((a ≥ 0 ∧ l.number < a) ∨ (b ≥ 0 ∧ l.number > b)) := by
        unfold in_list_range at hin; omega
      simp only [prog_list_loop, hskip, if_false, List.filter_cons, hin, decide_True, if_true,
        listed_lines_cons, ih]
    · have hskip : (a ≥ 0 ∧ l.number < a) ∨ (b ≥ 0 ∧ l.number > b) := by
        unfold in_list_range at hin; omega
      simp only [prog_list_loop, hskip, if_true, List.filter_cons, hin, decide_False,
        Bool.false_eq_true, if_false, ih]

/-- In a strictly ascending table the entries with the number of `x` are `x` alone. -/
theorem filter_number_eq (g : Table) (x : prog_line_t) (hs : StrictAsc g) (hx : x ∈ g)
    (hx1 : x.number ≠ -1) :
    g.filter (fun l => decide (in_list_range x.number x.number l.number)) = [x] := by
  obtain ⟨pre, post, rfl⟩ := List.append_of_mem hx
  obtain ⟨hpre, hpost⟩ := strictAsc_split pre x post hs
  have e1 : pre.filter (fun l => decide (in_list_range x.number x.number l.number)) = [] := by
    apply filter_none; intro l hl; have := hpre l hl
    simp only [decide_eq_false_iff_not, in_list_range]; omega
  have e2 : post.filter (fun l => decide (in_list_range x.number x.number l.number)) = [] := by
    apply filter_none; intro l hl; have := hpost l hl
    simp only [decide_eq_false_iff_not, in_list_range]; omega
  have e3 : in_list_range x.number x.number x.number := by
    unfold in_list_range; omega
  simp only [List.filter_append, List.filter_cons, e1, e2, e3, decide_True, if_true,
    List.nil_append]

/-- C17, as the code has it: for a strictly ascending table that is not empty and bounds `a`,
`b` that are line numbers or -1 (unbounded), `prog_list_range(a, b)` prints exactly the entries
whose number lies within the bounds, each once, in ascending order, as `<number> <text>` and
CR LF; for the empty table it prints `(empty)`. `LIST 20-20` is parsed to `a = b = 20`; it
prints exactly line 20 when the table contains it, and nothing when a non-empty table does not
contain it. -/
theorem C17_list_range (g : Table) (a b : Int) (hs : StrictAsc g) (ha : -1 ≤ a) (hb : -1 ≤ b) :
    (g ≠ [] →
      prog_list_range g a b =
        listed_lines (g.filter (fun l => decide (in_list_range a b l.number))) ∧
      StrictAsc (g.filter (fun l => decide (in_list_range a b l.number)))) ∧
    (g = [] → prog_list_range g a b = "(empty)\r\n".toList) ∧
    list_bounds "20-20".toList = (20, 20) ∧
    (∀ l ∈ g, l.number = 20 →
      prog_list_range g 20 20 = "20 ".toList ++ l.text ++ "\r\n".toList) ∧
    (g ≠ [] → (∀ l ∈ g, l.number ≠ 20) → prog_list_range g 20 20 = []) := by
  have hne : ∀ t : Table, t ≠ [] → ¬ t.length = 0 := fun t ht h => ht (List.length_eq_zero.mp h)
  refine ⟨?_, ?_, by decide, ?_, ?_⟩
  · intro hg
    refine ⟨?_, List.Pairwise.filter _ hs⟩
    simp only [prog_list_range, hne g hg, if_false]
    exact prog_list_loop_eq g a b ha hb
  · intro hg
    subst hg; rfl
  · intro l hl h20
    have hg : g ≠ [] := List.ne_nil_of_mem hl
    simp only [prog_list_range, hne g hg, if_false]
    rw [prog_list_loop_eq g 20 20 (by omega) (by omega)]
    have := filter_number_eq g l hs hl (by omega)
    rw [h20] at this
    rw [this, listed_lines_cons, h20]
    have h20d : fmt_d 20 = "20".toList := by decide
    rw [h20d]
    simp [listed_lines, String.toList]
  · intro hg habs
    simp only [prog_list_range, hne g hg, if_false]
    rw [prog_list_loop_eq g 20 20 (by omega) (by omega), filter_none]
    · rfl
    · intro l hl
      have := habs l hl
      simp only [decide_eq_false_iff_not, in_list_range]; omega

/-- C17, at the table `10 PRINT "Hi"`, `20 GOTO 10`: `LIST 20-20` prints line 20, and
`LIST 15` (bounds 15 and -1) prints line 20 as well. -/
theorem C17_list_range_witness :
    prog_list_range hello_table 20 20 = "20 GOTO 10\r\n".toList ∧
    prog_list_range hello_table 15 (-1) = "20 GOTO 10\r\n".toList :=
  ⟨((C17_list_range hello_table 20 20 (by decide) (by decide) (by decide)).1
      (by decide)).1.trans (by decide),
   ((C17_list_range hello_table 15 (-1) (by decide) (by decide) (by decide)).1
      (by decide)).1.trans (by decide)⟩

/-- C17 as stated fails: on the empty table, which does not contain line 20, `LIST 20-20`
prints `(empty)` instead of nothing. -/
theorem C17_stated_counterexample :
    prog_list_range [] 20 20 = "(empty)\r\n".toList ∧
    prog_list_range [] 20 20 ≠
      listed_lines (([] : Table).filter (fun l => decide (in_list_range 20 20 l.number))) := by
  decide


/-! ## The size of the built buffer and the number of the appended line: claims C18, C19 -/

theorem numbered_lines_length (g : Table) :
    (numbered_lines g).length =
      (g.map (fun l => (fmt_d l.number).length + 1 + l.text.length + 1)).sum := by
  induction g with
  | nil => rfl
  | cons l g ih =>
    rw [numbered_lines_cons, List.length_append, ih, List.map_cons, List.sum_cons]
    simp only [line_bytes, List.length_append, List.length_cons, List.length_nil]
    omega

/-- As long as the lines fit, the writing loop reaches the entry after `pre` with `pos` at the
length of the lines of `pre`. -/
theorem build_loop_reaches (total : Nat) (pre rest : Table) (pos : Nat) (buf : List Char)
    (h : pos + (numbered_lines pre).length < total) :
    prog_build_loop total (pre ++ rest) pos buf =
      prog_build_loop total rest (pos + (numbered_lines pre).length)
        (buf ++ numbered_lines pre) := by
  induction pre generalizing pos buf with
  | nil => simp [numbered_lines]
  | cons l pre ih =>
    rw [numbered_lines_cons] at h ⊢
    rw [List.length_append] at h
    have hw : (line_bytes l).length ≤ total - pos - 1 := by omega
    have htake : (line_bytes l).take (total - pos - 1) = line_bytes l := List.take_of_length_le hw
    have hpos : ¬ total < pos := by omega
    simp only [List.cons_append, prog_build_loop, snprintf_line, hpos, if_false]
    change prog_build_loop total (pre ++ rest) (pos + (line_bytes l).length)
        (buf ++ (line_bytes l).take (total - pos - 1)) = _
    rw [htake, ih _ _ (by omega)]
    simp [Nat.add_assoc]

/-- C18: for a table whose numbers lie in 1..65535, `total` is 1 plus the sum of
`6 + len(text) + 1` and is strictly greater than the sum of
`digits(number) + 1 + len(text) + 1`; at the `snprintf` call for every entry `l` (reached with
`pos` at the length of the lines before it) the space `total - pos` exceeds the formatted
length and the line is stored whole; the loop ends with `pos` at most `total`, so `buf[pos]`
lies inside the `total + 1` allocated bytes. -/
theorem C18_build_size_is_upper_bound (g : Table)
    (hr : ∀ l ∈ g, 1 ≤ l.number ∧ l.number ≤ 65535) :
    build_total g 1 = 1 + (g.map (fun l => 6 + l.text.length + 1)).sum ∧
    (g.map (fun l => (fmt_d l.number).length + 1 + l.text.length + 1)).sum < build_total g 1 ∧
    (∀ (pre : Table) (l : prog_line_t) (post : Table), g = pre ++ l :: post →
      prog_build_loop (build_total g 1) g 0 [] =
        prog_build_loop (build_total g 1) (l :: post) (numbered_lines pre).length
          (numbered_lines pre) ∧
      (line_bytes l).length < build_total g 1 - (numbered_lines pre).length ∧
      snprintf_line (build_total g 1 - (numbered_lines pre).length) l.number l.text =
        (line_bytes l, (line_bytes l).length)) ∧
    ∃ (buf : List Char) (pos : Nat),
      prog_build_loop (build_total g 1) g 0 [] = some (buf, pos) ∧ pos < build_total g 1 + 1 := by
  have hn : ∀ l ∈ g, 0 ≤ l.number ∧ l.number ≤ 99999 := fun l hl => by
    have := hr l hl; omega
  have hle := numbered_lines_length_le g hn
  have htot := build_total_eq g 1
  have hlt : (numbered_lines g).length < build_total g 1 := by omega
  refine ⟨htot, by rw [← numbered_lines_length]; exact hlt, ?_, ?_⟩
  · intro pre l post hg
    have hsplit : (numbered_lines g).length =
        (numbered_lines pre).length + ((line_bytes l).length + (numbered_lines post).length) := by
      rw [hg, numbered_lines_append, numbered_lines_cons]
      simp only [List.length_append]
    have hfit : (line_bytes l).length < build_total g 1 - (numbered_lines pre).length := by omega
    refine ⟨?_, hfit, ?_⟩
    · have h := build_loop_reaches (build_total g 1) pre (l :: post) 0 [] (by omega)
      rw [← hg] at h
      simpa using h
    · simp only [snprintf_line]
      have htake : (line_bytes l).take (build_total g 1 - (numbered_lines pre).length - 1) =
          line_bytes l := List.take_of_length_le (by omega)
      exact Prod.ext htake rfl
  · refine ⟨_, _, build_loop_fits (build_total g 1) g 0 [] (by omega), by omega⟩

/-- C18, at the table `10 PRINT "Hi"`, `20 GOTO 10`: 32 bytes are sized for 25. -/
theorem C18_build_size_is_upper_bound_witness :
    build_total hello_table 1 = 32 ∧
    prog_build_loop 32 hello_table 0 [] = some ("10 PRINT \"Hi\"\n20 GOTO 10\n".toList, 25) :=
  ⟨(C18_build_size_is_upper_bound hello_table (by decide)).1.trans (by decide), by decide⟩

theorem le_prog_max_line (g : Table) (hs : StrictAsc g) :
    ∀ l ∈ g, l.number ≤ prog_max_line g := by
  rcases List.eq_nil_or_concat g with rfl | ⟨init, last, rfl⟩
  · simp
  · have hmax : prog_max_line (init.concat last) = last.number := by
      simp [prog_max_line]
    rw [hmax]
    intro l hl
    rw [List.concat_eq_append] at hl hs
    rcases List.mem_append.mp hl with hl | hl
    · exact le_of_lt ((List.pairwise_append.mp hs).2.2 l hl last (by simp))
    · rw [List.mem_singleton] at hl; rw [hl]

/-- C19: for a strictly ascending table whose highest number `m` (0 for the empty table) lies
in 0..65534, the number `k` of the line `ensure_program_has_numbered_end` appends satisfies
`m < k ≤ 65535`; it is greater than every stored number, so the table followed by the line
`k end` is strictly ascending, and that line is what the function appends to a buffer without
terminator line. -/
theorem C19_end_line_above_table (g : Table) (hs : StrictAsc g) (h0 : 0 ≤ prog_max_line g)
    (h1 : prog_max_line g ≤ 65534) :
    prog_max_line g < end_line_number (prog_max_line g) ∧
    end_line_number (prog_max_line g) ≤ 65535 ∧
    (∀ l ∈ g, l.number < end_line_number (prog_max_line g)) ∧
    StrictAsc (g ++ [⟨end_line_number (prog_max_line g), "end".toList⟩]) ∧
    (∀ b : List Char, (lines_of b).any line_has_end = false →
      ensure_program_has_numbered_end g b =
        some (b ++ line_bytes ⟨end_line_number (prog_max_line g), "end".toList⟩)) := by
  have hk1 : prog_max_line g < end_line_number (prog_max_line g) := by
    unfold end_line_number; split <;> omega
  have hk2 : end_line_number (prog_max_line g) ≤ 65535 := by
    unfold end_line_number; split <;> omega
  have hall : ∀ l ∈ g, l.number < end_line_number (prog_max_line g) := fun l hl =>
    lt_of_le_of_lt (le_prog_max_line g hs l hl) hk1
  refine ⟨hk1, hk2, hall, ?_, ?_⟩
  · unfold StrictAsc at hs ⊢
    rw [List.pairwise_append]
    refine ⟨hs, List.pairwise_singleton _ _, ?_⟩
    intro a ha b hb
    rw [List.mem_singleton] at hb
    rw [hb]
    exact hall a ha
  · intro b hb
    rw [ensure_eq, hb]
    simp [line_bytes, String.toList]

/-- C19, at the table `10 PRINT "Hi"`, `20 GOTO 10`: the appended line is `30 end`. -/
theorem C19_end_line_above_table_witness :
    prog_max_line hello_table < end_line_number (prog_max_line hello_table) ∧
    end_line_number (prog_max_line hello_table) = 30 ∧
    ensure_program_has_numbered_end hello_table "10 print \"Hi\"\n20 goto 10\n".toList =
      some "10 print \"Hi\"\n20 goto 10\n30 end\n".toList :=
  ⟨(C19_end_line_above_table hello_table (by decide) (by decide) (by decide)).1, by decide,
   ((C19_end_line_above_table hello_table (by decide) (by decide) (by decide)).2.2.2.2
      "10 print \"Hi\"\n20 goto 10\n".toList (by decide)).trans (by decide)⟩


